import Mathlib

/-!
# Verification of the `shadow-dom-selector` (`xfind`) library

This file gives a shallow embedding of `src/xfind.js` and settles a list of
claims about it.  Strings are modelled as `List Char` (`Str`); the DOM tree is
an inductive forest of elements, each owning a (possibly empty) shadow forest
and a list of light children; the host environment (native `querySelector`,
`matches`, selector validation, shadow capability detection) is an external
collaborator and is modelled by an explicit `Env` record of oracles.
-/

set_option maxRecDepth 4000

/-- Strings are modelled as lists of characters. -/
abbrev Str := List Char

/-- JavaScript line terminators: the characters not matched by `.` in a
non-dotall regular expression (`\n`, `\r`, U+2028, U+2029). -/
def isLineTerm (c : Char) : Bool :=
  c = '\n' || c = '\r' || c = '\u2028' || c = '\u2029'

/-!
## Quote-aware tokenizer (`splitByUnquotedCharacter`, src/xfind.js lines 152-167)

The source first runs `selector.match(/\\?.|^$/g)`: the string is cut into
tokens that are either an escaped pair `\c`, or a single character; characters
not matched by `.` (line terminators) are skipped; the empty input yields one
empty-string token.  `scanTokens` embeds that tokenisation.
-/

/-- Embedding of `selector.match(/\\?.|^$/g)` for a non-empty input: cuts the
string into escape pairs and single characters, silently skipping line
terminators (which `.` does not match).  A backslash immediately followed by a
line terminator cannot form a pair (`.` does not match the terminator), so the
backslash becomes a lone one-character token. -/
def scanTokens : Str → List Str
  | [] => []
  | c :: rest =>
      if c = '\\' then
        match rest with
        | [] => [['\\']]
        | c2 :: rest2 =>
            if isLineTerm c2 then ['\\'] :: scanTokens (c2 :: rest2)
            else ['\\', c2] :: scanTokens rest2
      else if isLineTerm c then scanTokens rest else [c] :: scanTokens rest

/-- State of the `reduce` in `splitByUnquotedCharacter`: the pieces produced so
far (the last one still growing) and the two quote flags. -/
structure SplitAcc where
  strings : List Str
  doubleQuote : Bool
  singleQuote : Bool

/-- `acc.strings[acc.strings.length - 1] += char`: append a token to the last
(currently growing) piece. -/
def appendToLast (pieces : List Str) (tok : Str) : List Str :=
  match pieces with
  | [] => [tok]
  | [p] => [p ++ tok]
  | p :: rest => p :: appendToLast rest tok

/-- One step of the `reduce` in `splitByUnquotedCharacter` (src/xfind.js
lines 153-165), acting on one token of `scanTokens`. -/
def splitStep (character : Char) (acc : SplitAcc) (tok : Str) : SplitAcc :=
  if tok = ['"'] && !acc.singleQuote then
    { acc with doubleQuote := !acc.doubleQuote,
               strings := appendToLast acc.strings ['"'] }
  else if tok = ['\''] && !acc.doubleQuote then
    { acc with singleQuote := !acc.singleQuote,
               strings := appendToLast acc.strings ['\''] }
  else if !acc.doubleQuote && !acc.singleQuote && tok = [character] then
    { acc with strings := acc.strings ++ [[]] }
  else
    { acc with strings := appendToLast acc.strings tok }

/-- Embedding of `splitByUnquotedCharacter(selector, character)`: tokenise with
`scanTokens` (the `match(/\\?.|^$/g)` call; its `^$` alternative makes the
empty input contribute one empty token, which leaves the initial accumulator
unchanged), then fold `splitStep` from
`{ strings: [''], doubleQuote: 0, singleQuote: 0 }` and keep `strings`. -/
def splitByUnquotedCharacter (selector : Str) (character : Char) : List Str :=
  ((scanTokens selector).foldl (splitStep character)
    { strings := [[]], doubleQuote := false, singleQuote := false }).strings

/-!
## Specification-side tokenizer

`specSplit` follows the words of the claim: walk the raw characters; an escaped
pair (a backslash and its following character) is atomic and never changes
quote state; a double quote toggles the double-quote state unless the
single-quote state is active; a single quote toggles the single-quote state
unless the double-quote state is active; the delimiter starts a new piece
exactly when neither quote state is active.  (A trailing lone backslash is not
a pair and is handled as an ordinary character.)
-/

/-- The claim's tokenizer, accumulating the current piece `cur` and the two
quote states. -/
def specSplitAux (d : Char) : Str → Str → Bool → Bool → List Str
  | [], cur, _, _ => [cur]
  | c :: rest, cur, dq, sq =>
      if c = '\\' then
        match rest with
        | [] => if c = d && !dq && !sq then [cur, []] else [cur ++ [c]]
        | c2 :: rest2 => specSplitAux d rest2 (cur ++ [c, c2]) dq sq
      else if c = '"' && !sq then specSplitAux d rest (cur ++ [c]) (!dq) sq
      else if c = '\'' && !dq then specSplitAux d rest (cur ++ [c]) dq (!sq)
      else if c = d && !dq && !sq then cur :: specSplitAux d rest [] dq sq
      else specSplitAux d rest (cur ++ [c]) dq sq

/-- Specification-side quote-aware splitter. -/
def specSplit (d : Char) (s : Str) : List Str := specSplitAux d s [] false false

/-- Rejoin pieces, reinserting the delimiter between consecutive pieces. -/
def joinWith (d : Char) : List Str → Str
  | [] => []
  | [p] => p
  | p :: rest => p ++ d :: joinWith d rest

/-- Token-level recursion equivalent to the `reduce` over `splitStep`,
convenient for induction. -/
def procToks (d : Char) : List Str → Str → Bool → Bool → List Str
  | [], cur, _, _ => [cur]
  | t :: ts, cur, dq, sq =>
      if t = ['"'] && !sq then procToks d ts (cur ++ ['"']) (!dq) sq
      else if t = ['\''] && !dq then procToks d ts (cur ++ ['\'']) dq (!sq)
      else if !dq && !sq && t = [d] then cur :: procToks d ts [] dq sq
      else procToks d ts (cur ++ t) dq sq

/-! ### Supporting lemmas for the tokenizer -/

theorem appendToLast_of_append (done : List Str) (cur tok : Str) :
    appendToLast (done ++ [cur]) tok = done ++ [cur ++ tok] := by
  induction done with
  | nil => simp [appendToLast]
  | cons p ps ih =>
    cases hps : ps ++ [cur] with
    | nil => exact absurd hps (by simp)
    | cons q qs =>
      simp only [List.cons_append, hps, appendToLast]
      rw [← hps, ih]

theorem splitStep_mk (d : Char) (ss : List Str) (dq sq : Bool) (t : Str) :
    splitStep d ⟨ss, dq, sq⟩ t =
      if t = ['"'] && !sq then ⟨appendToLast ss ['"'], !dq, sq⟩
      else if t = ['\''] && !dq then ⟨appendToLast ss ['\''], dq, !sq⟩
      else if !dq && !sq && t = [d] then ⟨ss ++ [[]], dq, sq⟩
      else ⟨appendToLast ss t, dq, sq⟩ := rfl

/-- The fold over `splitStep` computes `procToks`, relative to the already
finished pieces `done`. -/
theorem foldl_splitStep_eq_procToks (d : Char) (toks : List Str)
    (done : List Str) (cur : Str) (dq sq : Bool) :
    ((toks.foldl (splitStep d)
        { strings := done ++ [cur], doubleQuote := dq, singleQuote := sq }).strings)
      = done ++ procToks d toks cur dq sq := by
  induction toks generalizing done cur dq sq with
  | nil => simp [procToks]
  | cons t ts ih =>
    rw [List.foldl_cons, splitStep_mk]
    by_cases h1 : (t = ['"'] && !sq) = true
    · rw [if_pos h1, appendToLast_of_append]
      rw [show procToks d (t :: ts) cur dq sq = procToks d ts (cur ++ ['"']) (!dq) sq by
        simp only [procToks]; rw [if_pos h1]]
      exact ih done (cur ++ ['"']) (!dq) sq
    · rw [if_neg h1]
      by_cases h2 : (t = ['\''] && !dq) = true
      · rw [if_pos h2, appendToLast_of_append]
        rw [show procToks d (t :: ts) cur dq sq = procToks d ts (cur ++ ['\'']) dq (!sq) by
          simp only [procToks]; rw [if_neg h1, if_pos h2]]
        exact ih done (cur ++ ['\'']) dq (!sq)
      · rw [if_neg h2]
        by_cases h3 : (!dq && !sq && t = [d]) = true
        · rw [if_pos h3]
          rw [show procToks d (t :: ts) cur dq sq = cur :: procToks d ts [] dq sq by
            simp only [procToks]; rw [if_neg h1, if_neg h2, if_pos h3]]
          rw [show done ++ [cur] ++ [[]] = (done ++ [cur]) ++ [([] : Str)] by simp]
          rw [ih (done ++ [cur]) [] dq sq]
          simp
        · rw [if_neg h3, appendToLast_of_append]
          rw [show procToks d (t :: ts) cur dq sq = procToks d ts (cur ++ t) dq sq by
            simp only [procToks]; rw [if_neg h1, if_neg h2, if_neg h3]]
          exact ih done (cur ++ t) dq sq

/-- On inputs without line terminators the token-level process agrees with the
claim's character-level automaton. -/
theorem procToks_scanTokens (d : Char) :
    ∀ (cs : Str), (∀ c ∈ cs, isLineTerm c = false) →
    ∀ (cur : Str) (dq sq : Bool),
      procToks d (scanTokens cs) cur dq sq = specSplitAux d cs cur dq sq
  | [], _, cur, dq, sq => by simp [scanTokens, procToks, specSplitAux]
  | c :: rest, h, cur, dq, sq => by
      have hc : isLineTerm c = false := h c (by simp)
      by_cases hbs : c = '\\'
      · subst hbs
        cases rest with
        | nil =>
            rw [show scanTokens ['\\'] = [['\\']] by simp [scanTokens]]
            rw [show specSplitAux d ['\\'] cur dq sq
                  = if '\\' = d && !dq && !sq then [cur, []] else [cur ++ ['\\']] by
              simp [specSplitAux]]
            simp only [procToks]
            have e1 : ((['\\'] : Str) = ['"']) = False := by simp
            have e2 : ((['\\'] : Str) = ['\'']) = False := by simp
            have e3 : ((['\\'] : Str) = [d]) = (('\\' : Char) = d) := by simp
            simp only [e1, e2, e3, decide_False, Bool.false_and, Bool.and_false,
              if_false]
            by_cases hd : ('\\' : Char) = d
            · simp [hd, procToks, Bool.and_comm, Bool.and_left_comm]
              by_cases hdq : dq <;> by_cases hsq : sq <;> simp [hdq, hsq]
            · simp [hd, procToks]
        | cons c2 rest2 =>
            have hc2 : isLineTerm c2 = false := h c2 (by simp)
            have hrest2 : ∀ x ∈ rest2, isLineTerm x = false :=
              fun x hx => h x (by simp [hx])
            rw [show scanTokens ('\\' :: c2 :: rest2)
                  = ['\\', c2] :: scanTokens rest2 by
              simp [scanTokens, hc2]]
            rw [show specSplitAux d ('\\' :: c2 :: rest2) cur dq sq
                  = specSplitAux d rest2 (cur ++ ['\\', c2]) dq sq by
              simp [specSplitAux]]
            simp only [procToks]
            have e1 : ((['\\', c2] : Str) = ['"']) = False := by simp
            have e2 : ((['\\', c2] : Str) = ['\'']) = False := by simp
            have e3 : ((['\\', c2] : Str) = [d]) = False := by simp
            simp only [e1, e2, e3, decide_False, Bool.false_and, Bool.and_false,
              if_false]
            exact procToks_scanTokens d rest2 hrest2 (cur ++ ['\\', c2]) dq sq
      · have hrest : ∀ x ∈ rest, isLineTerm x = false :=
          fun x hx => h x (by simp [hx])
        rw [show scanTokens (c :: rest) = [c] :: scanTokens rest by
          cases rest with
          | nil => simp [scanTokens, hbs, hc]
          | cons c2 r2 => simp [scanTokens, hbs, hc]]
        rw [show specSplitAux d (c :: rest) cur dq sq
              = if c = '"' && !sq then specSplitAux d rest (cur ++ [c]) (!dq) sq
                else if c = '\'' && !dq then specSplitAux d rest (cur ++ [c]) dq (!sq)
                else if c = d && !dq && !sq then cur :: specSplitAux d rest [] dq sq
                else specSplitAux d rest (cur ++ [c]) dq sq by
          cases rest with
          | nil => simp only [specSplitAux, if_neg hbs]
          | cons c2 r2 => simp only [specSplitAux, if_neg hbs]]
        simp only [procToks]
        have e1 : (([c] : Str) = ['"']) = ((c : Char) = '"') := by simp
        have e2 : (([c] : Str) = ['\'']) = ((c : Char) = '\'') := by simp
        have e3 : (([c] : Str) = [d]) = ((c : Char) = d) := by simp
        simp only [e1, e2, e3]
        by_cases b1 : (c = '"' && !sq) = true
        · have hcq : c = '"' := by
            have h' : c = '"' ∧ sq = false := by simpa using b1
            exact h'.1
          subst hcq
          rw [if_pos b1, if_pos b1]
          exact procToks_scanTokens d rest hrest (cur ++ ['"']) (!dq) sq
        · rw [if_neg b1, if_neg b1]
          by_cases b2 : (c = '\'' && !dq) = true
          · have hcq : c = '\'' := by
              have h' : c = '\'' ∧ dq = false := by simpa using b2
              exact h'.1
            subst hcq
            rw [if_pos b2, if_pos b2]
            exact procToks_scanTokens d rest hrest (cur ++ ['\'']) dq (!sq)
          · rw [if_neg b2, if_neg b2]
            have b3iff : ((!dq && !sq && decide (c = d)) = true)
                ↔ ((c = d && !dq && !sq) = true) := by
              simp only [Bool.and_eq_true]
              tauto
            by_cases b3 : (c = d && !dq && !sq) = true
            · rw [if_pos (b3iff.mpr b3), if_pos b3]
              rw [procToks_scanTokens d rest hrest [] dq sq]
            · rw [if_neg (fun hx => b3 (b3iff.mp hx)), if_neg b3]
              rw [procToks_scanTokens d rest hrest (cur ++ [c]) dq sq]

/-- For line-terminator-free input, the source tokenizer equals the claim's
automaton. -/
theorem splitByUnquotedCharacter_eq_specSplit (s : Str) (d : Char)
    (h : ∀ c ∈ s, isLineTerm c = false) :
    splitByUnquotedCharacter s d = specSplit d s := by
  unfold splitByUnquotedCharacter specSplit
  rw [show ({ strings := [[]], doubleQuote := false, singleQuote := false } : SplitAcc)
        = ⟨[] ++ [[]], false, false⟩ by rfl]
  rw [foldl_splitStep_eq_procToks]
  rw [procToks_scanTokens d s h]
  simp

/-!
## The DOM model

An element has an identity `eid`, a tag name (used only by the concrete
mini-CSS host below), an attached shadow forest (`[]` models an absent shadow
root: an empty shadow root and an absent one are observationally identical for
every routine of the source) and its light children.  A `Doc` is the document,
holding the top-level elements.  `XNode` is the type of DOM nodes a traversal
can meet: the document node, an element, or the shadow root attached to a host
element.  JavaScript's reference identity (`===`) on nodes is modelled by
comparing element identities, which coincides with reference identity on
well-formed documents (distinct `eid`s).
-/

/-- A DOM element: identity, tag name, shadow forest, light children. -/
inductive Elem where
  | node (eid : Nat) (tag : Str) (shadow : List Elem) (children : List Elem)

/-- The document: its top-level elements. -/
structure Doc where
  children : List Elem

def Elem.eid : Elem → Nat
  | .node i _ _ _ => i

def Elem.tag : Elem → Str
  | .node _ t _ _ => t

def Elem.shadow : Elem → List Elem
  | .node _ _ s _ => s

def Elem.children : Elem → List Elem
  | .node _ _ _ c => c

/-- A DOM node as seen by upward traversal: the document itself, an element,
or the shadow root (a `DocumentFragment` with `host` set and `nodeType` 11)
attached to a host element. -/
inductive XNode where
  | doc (d : Doc)
  | elem (e : Elem)
  | shadowRoot (host : Elem)

/-- Reference identity (`===`) of DOM nodes, modelled through element
identities.  There is a single document. -/
def xnodeEqB : XNode → XNode → Bool
  | .doc _, .doc _ => true
  | .elem e, .elem f => e.eid == f.eid
  | .shadowRoot a, .shadowRoot b => a.eid == b.eid
  | _, _ => false

/-- Number of elements in a forest, counting shadow and light subtrees. -/
def sizeL : List Elem → Nat
  | [] => 0
  | .node _ _ sh ch :: rest => (1 + sizeL sh + sizeL ch) + sizeL rest

/-- Number of elements below and including `e`. -/
def sizeE (e : Elem) : Nat := 1 + sizeL e.shadow + sizeL e.children

theorem sizeL_cons (e : Elem) (rest : List Elem) :
    sizeL (e :: rest) = sizeE e + sizeL rest := by
  cases e with
  | node i t sh ch => simp [sizeL, sizeE, Elem.shadow, Elem.children]

theorem sizeE_pos (e : Elem) : 0 < sizeE e := by
  cases e with
  | node i t sh ch => simp [sizeE]

/-- All elements of a forest together with their light descendants, in
document (pre)order.  `descList es` embeds `root.querySelectorAll(\'*\')` when
`es` is the list of direct children of `root`: the native all-matches query
returns every light descendant in document order and does not pierce shadow
boundaries. -/
def descList : List Elem → List Elem
  | [] => []
  | .node i t sh ch :: rest => .node i t sh ch :: (descList ch ++ descList rest)

theorem descList_cons (e : Elem) (rest : List Elem) :
    descList (e :: rest) = e :: (descList e.children ++ descList rest) := by
  cases e with
  | node i t sh ch => simp [descList, Elem.children]

mutual
/-- Shadow-reach weight of an element: itself plus the weight of everything
inside its shadow forest (used as the termination measure of
`collectElements`). -/
def creach : Elem → Nat
  | .node _ _ sh _ => 1 + sreachF sh
/-- Sum of `creach` over a forest and the light descendants of its members. -/
def sreachF : List Elem → Nat
  | [] => 0
  | .node i t sh ch :: rest => creach (.node i t sh ch) + sreachF ch + sreachF rest
end

theorem creach_def (e : Elem) : creach e = 1 + sreachF e.shadow := by
  cases e with
  | node i t sh ch => simp [creach, Elem.shadow]

theorem creach_pos (e : Elem) : 0 < creach e := by
  rw [creach_def]; omega

theorem sreachF_eq : ∀ l : List Elem, sreachF l = ((descList l).map creach).sum
  | [] => by simp [sreachF, descList]
  | .node i t sh ch :: rest => by
      have ih1 := sreachF_eq ch
      have ih2 := sreachF_eq rest
      rw [show sreachF (.node i t sh ch :: rest)
            = creach (.node i t sh ch) + sreachF ch + sreachF rest by simp [sreachF]]
      rw [descList_cons]
      simp [Elem.children, ih1, ih2]
      omega

/-- Embedding of `collectElements` inside `gatherAllElementsXFind`
(src/xfind.js lines 189-196): walk a flat node list; push each node and, when
it has a shadow root, all elements of that shadow tree
(`node.shadowRoot.querySelectorAll('*')`, i.e. `descList node.shadow`)
recursively.  An absent shadow root is the empty forest, for which the
recursive call contributes nothing. -/
def collectElements (l : List Elem) : List Elem :=
  match l with
  | [] => []
  | e :: rest => e :: (collectElements (descList e.shadow) ++ collectElements rest)
termination_by (l.map creach).sum
decreasing_by
  · rw [← sreachF_eq]
    have h1 : creach e = 1 + sreachF e.shadow := creach_def e
    simp
    omega
  · simp
    have := creach_pos e
    omega

/-- Every element reachable from a forest through light or shadow children,
in preorder (shadow before light). -/
def fullF : List Elem → List Elem
  | [] => []
  | .node i t sh ch :: rest => .node i t sh ch :: (fullF sh ++ fullF ch) ++ fullF rest

theorem fullF_cons (e : Elem) (rest : List Elem) :
    fullF (e :: rest) = e :: (fullF e.shadow ++ fullF e.children) ++ fullF rest := by
  cases e with
  | node i t sh ch => simp [fullF, Elem.shadow, Elem.children]

/-- All elements of a document. -/
def allE (d : Doc) : List Elem := fullF d.children

/-- A document is well formed when all element identities are distinct. -/
def wfDoc (d : Doc) : Prop := ((allE d).map Elem.eid).Nodup

/-!
## Parent resolution

`parentPairs` tabulates, for every element of the document, its structural
`parentNode`: the document for top-level elements, the parent element for
light children, and the shadow root (with its host) for shadow children.
`findParent` looks an element identity up in this table; on well-formed
documents this is exactly the DOM `parentNode` relation.
-/

def pairsF : List Elem → List (Nat × XNode)
  | [] => []
  | .node i t sh ch :: rest =>
      (ch.map fun c => (c.eid, XNode.elem (.node i t sh ch)))
        ++ (sh.map fun c => (c.eid, XNode.shadowRoot (.node i t sh ch)))
        ++ pairsF sh ++ pairsF ch ++ pairsF rest

theorem pairsF_cons (e : Elem) (rest : List Elem) :
    pairsF (e :: rest)
      = (e.children.map fun c => (c.eid, XNode.elem e))
          ++ (e.shadow.map fun c => (c.eid, XNode.shadowRoot e))
          ++ pairsF e.shadow ++ pairsF e.children ++ pairsF rest := by
  cases e with
  | node i t sh ch => simp [pairsF, Elem.shadow, Elem.children]

def docPairs (d : Doc) : List (Nat × XNode) :=
  (d.children.map fun c => (c.eid, XNode.doc d)) ++ pairsF d.children

/-- `element.parentNode`, by identity lookup. -/
def findParent (d : Doc) (x : Nat) : Option XNode :=
  ((docPairs d).find? (fun pr => pr.1 == x)).map (fun pr => pr.2)

/-- `node.parentNode` for the three node kinds: elements are looked up in the
document; the document and shadow roots (fragments) have no parent. -/
def parentNode (d : Doc) : XNode → Option XNode
  | .elem e => findParent d e.eid
  | .doc _ => none
  | .shadowRoot _ => none

/-- Embedding of `getParentOrHost(element, root)` (src/xfind.js lines 175-178):
`parent && parent.host && parent.nodeType === 11 ? parent.host
 : parent === root ? null : parent`.
Only a shadow root has a `host` and `nodeType` 11. -/
def getParentOrHost (d : Doc) (x root : XNode) : Option XNode :=
  match parentNode d x with
  | none => none
  | some p =>
      match p with
      | .shadowRoot h => some (.elem h)
      | _ => if xnodeEqB p root then none else some p

/-!
## The host environment

The host's native query machinery is an external collaborator of the library.
Modelled from the spec: `canShadow` is the capability-detection signal
(`document.head.createShadowRoot || document.head.attachShadow`); `valid` is
the native selector-grammar validator (`querySelector` on a detached element
throws exactly on grammar-invalid input); `matches` is the per-element native
`Element.matches` predicate, indexed by element identity.  The native scoped
queries return exactly the light descendants of the root that match, in
document order.
-/

structure Env where
  canShadow : Bool
  valid : Str → Bool
  elMatches : Nat → Str → Bool

/-- Light descendants of a root node, in document order (the search universe
of the native scoped queries; they do not pierce shadow boundaries). -/
def lightDescOf : XNode → List Elem
  | .doc d => descList d.children
  | .elem e => descList e.children
  | .shadowRoot h => descList h.shadow

/-- Modelled from the spec: native `root.querySelectorAll(sel)`. -/
def nativeQuerySelectorAll (env : Env) (root : XNode) (sel : Str) : List Elem :=
  (lightDescOf root).filter (fun e => env.elMatches e.eid sel)

/-- Modelled from the spec: native `root.querySelector(sel)`. -/
def nativeQuerySelector (env : Env) (root : XNode) (sel : Str) : Option Elem :=
  (lightDescOf root).find? (fun e => env.elMatches e.eid sel)

/-- Embedding of `gatherAllElementsXFind(selector, root)` (src/xfind.js lines
186-204): if the root has a shadow root, collect that shadow tree first, then
collect the root's light descendants, recursing into every shadow root met;
finally filter by the optional selector (absent selector: no filtering). -/
def gatherAllElementsXFind (env : Env) (sel : Option Str) (root : XNode) :
    List Elem :=
  let shadowPart :=
    match root with
    | .elem e => collectElements (descList e.shadow)
    | _ => []
  let base := shadowPart ++ collectElements (lightDescOf root)
  match sel with
  | none => base
  | some s => base.filter (fun el => env.elMatches el.eid s)

/-!
## Ancestor-chain matcher (`matchElements`, src/xfind.js lines 128-144)
-/

/-- `refinedSelectors[position]` as the argument of `Element.matches`: an
out-of-range index yields `undefined`, which `matches` coerces to the string
`"undefined"`. -/
def compStr (comps : List Str) (pos : Int) : Str :=
  if pos < 0 then "undefined".data
  else comps.getD pos.toNat "undefined".data

/-- `currentElement.matches ? currentElement.matches(sel) : false`: only
elements have a `matches` method; the document node and shadow roots do not. -/
def nodeMatchesB (env : Env) (x : XNode) (s : Str) : Bool :=
  match x with
  | .elem e => env.elMatches e.eid s
  | _ => false

/-- The `while (currentElement)` loop of `matchElements`, with explicit fuel.
Each iteration either returns, or moves to `getParentOrHost` of the current
node; `fuelOf` below always suffices on well-formed documents (proved by
`chainAux_closed`). -/
def matchLoop (env : Env) (d : Doc) (root : XNode) (comps : List Str) :
    Nat → Int → Option XNode → Bool
  | 0, _, _ => false
  | _ + 1, _, none => false
  | fuel + 1, pos, some cur =>
      let isMatch := nodeMatchesB env cur (compStr comps pos)
      if isMatch && pos == 0 then true
      else
        matchLoop env d root comps fuel (if isMatch then pos - 1 else pos)
          (getParentOrHost d cur root)

/-- Fuel bound: strictly more than the number of elements of the document. -/
def fuelOf (d : Doc) : Nat := sizeL d.children + 2

/-- Embedding of `matchElements(refinedSelectors, lastIndex, root)`: the
returned predicate on candidate elements. -/
def matchElements (env : Env) (d : Doc) (comps : List Str) (lastIndex : Int)
    (root : XNode) (e : Elem) : Bool :=
  matchLoop env d root comps (fuelOf d) lastIndex (some (.elem e))

/-!
## Combinator normalisation and the per-stage pipeline
-/

/-- JavaScript `\s` whitespace (the members that can occur in our `Char`
model). -/
def isWS (c : Char) : Bool :=
  c = ' ' || c = '\t' || c = '\n' || c = '\r' || c = '\x0b' || c = '\x0c'

/-- The combinator characters of the normalisation regex `[>+~]`. -/
def isComb (c : Char) : Bool := c = '>' || c = '+' || c = '~'

/-- `String.prototype.trim`. -/
def jsTrim (s : Str) : Str :=
  ((s.dropWhile isWS).reverse.dropWhile isWS).reverse

theorem length_dropWhile_le (p : Char → Bool) (l : List Char) :
    (l.dropWhile p).length ≤ l.length := by
  induction l with
  | nil => simp
  | cons c rest ih =>
    rw [List.dropWhile_cons]
    split
    · simp; omega
    · simp

/-- Embedding of `.replace(/\s*([>+~])\s*/g, '$1')`: every maximal
whitespace-combinator-whitespace group collapses to the bare combinator; a
whitespace run not followed by a combinator is kept verbatim. -/
def normWS : Str → Str
  | [] => []
  | c :: rest =>
      if isComb c then c :: normWS (rest.dropWhile isWS)
      else if isWS c then
        match h : rest.dropWhile isWS with
        | [] => c :: rest
        | d :: rest2 =>
            if isComb d then d :: normWS (rest2.dropWhile isWS)
            else (c :: rest.takeWhile isWS) ++ normWS (d :: rest2)
      else c :: normWS rest
termination_by l => l.length
decreasing_by
  · have := length_dropWhile_le isWS rest
    simp
    omega
  · have h1 := length_dropWhile_le isWS rest
    have h2 := length_dropWhile_le isWS rest2
    have h3 : (rest.dropWhile isWS).length = rest2.length + 1 := by rw [h]; rfl
    simp
    omega
  · have h1 := length_dropWhile_le isWS rest
    have h3 : (rest.dropWhile isWS).length = rest2.length + 1 := by rw [h]; rfl
    simp
    omega
  · simp

/-- The per-alternative refinement of `queryInShadowDOM` (src/xfind.js line
105): trim, collapse whitespace around combinators, split on unquoted spaces,
drop empty components (`.filter(Boolean)`). -/
def refine (a : Str) : List Str :=
  (splitByUnquotedCharacter (normWS (jsTrim a)) ' ').filter (fun p => !p.isEmpty)

/-- Result of one query: single mode carries `Element | null`, multi mode a
list. -/
inductive QResult where
  | one (e : Option Elem)
  | many (es : List Elem)

/-- Embedding of `queryInShadowDOM(selector, findMany, root)` (src/xfind.js
lines 93-119). -/
def queryInShadowDOM (env : Env) (d : Doc) (sel : Str) (findMany : Bool)
    (root : XNode) : QResult :=
  let lightDomElement := nativeQuerySelector env root sel
  if env.canShadow then
    if !findMany && lightDomElement.isSome then .one lightDomElement
    else
      let splitSelectors := splitByUnquotedCharacter sel ','
      if findMany then
        .many (splitSelectors.foldl (fun acc a =>
          let refined := refine a
          let lastIndex : Int := (refined.length : Int) - 1
          let elementsToMatch := gatherAllElementsXFind env refined.getLast? root
          acc ++ elementsToMatch.filter (matchElements env d refined lastIndex root)) [])
      else
        .one (splitSelectors.foldl (fun acc a =>
          match acc with
          | some x => some x
          | none =>
            let refined := refine a
            let lastIndex : Int := (refined.length : Int) - 1
            let elementsToMatch := gatherAllElementsXFind env refined.getLast? root
            elementsToMatch.find? (matchElements env d refined lastIndex root)) none)
  else
    if findMany then .many (nativeQuerySelectorAll env root sel)
    else .one lightDomElement

/-- `querySelectorXFind` (src/xfind.js lines 82-84); single mode always
produces a `.one` result, the `.many` arm is dead. -/
def querySelectorXFind (env : Env) (d : Doc) (sel : Str) (root : XNode) :
    Option Elem :=
  match queryInShadowDOM env d sel false root with
  | .one o => o
  | .many l => l.head?

/-- `querySelectorAllXFind` (src/xfind.js lines 72-74); multi mode always
produces a `.many` result, the `.one` arm is dead. -/
def querySelectorAllXFind (env : Env) (d : Doc) (sel : Str) (root : XNode) :
    List Elem :=
  match queryInShadowDOM env d sel true root with
  | .many l => l
  | .one o => o.toList

/-!
## The orchestrator (`performQuery`, `xfind`, `xfindAll`)
-/

/-- `selector.split('>>>')`: split on each leftmost non-overlapping occurrence
of the three-character boundary marker. -/
def splitTriple : Str → List Str
  | [] => [[]]
  | '>' :: '>' :: '>' :: rest => [] :: splitTriple rest
  | c :: rest =>
      match splitTriple rest with
      | [] => [[c]]
      | p :: ps => (c :: p) :: ps

/-- Observable events of a query: a stage being queried, the
`console.error` diagnostic for a missing stage, and the final
`console.log` count of `xfind`/`xfindAll`. -/
inductive Ev where
  | staged (sel : Str)
  | notFound (sel : Str)
  | found (n : Nat)

/-- Result of the whole orchestrator: single mode can in principle carry any
node (the root would be returned for an empty stage list, which `split` never
produces), multi mode a list of elements. -/
inductive StageOut where
  | oneN (x : Option XNode)
  | many (es : List Elem)

/-- The stage loop of `performQuery` (src/xfind.js lines 53-63), with the
event trace of the stages actually queried. -/
def runStages (env : Env) (d : Doc) (findMany : Bool) :
    XNode → List Str → StageOut × List Ev
  | cur, [] => (.oneN (some cur), [])
  | cur, [s] =>
      if findMany then (.many (querySelectorAllXFind env d s cur), [.staged s])
      else
        match querySelectorXFind env d s cur with
        | some e => (.oneN (some (.elem e)), [.staged s])
        | none => (.oneN none, [.staged s, .notFound s])
  | cur, s :: s2 :: rest =>
      match querySelectorXFind env d s cur with
      | some e =>
          let out := runStages env d findMany (.elem e) (s2 :: rest)
          (out.1, .staged s :: out.2)
      | none =>
          (if findMany then .many [] else .oneN none, [.staged s, .notFound s])

/-- `validateSelector` (src/xfind.js lines 210-216): querying a detached
element throws exactly when the host's grammar validator rejects the string;
the catch rethrows `Invalid selector: ...`. -/
def validateSelector (env : Env) (sel : Str) : Except Str Unit :=
  if env.valid sel then .ok ()
  else .error ("Invalid selector: ".data ++ sel)

/-- Embedding of `performQuery(selector, findMany, root)` (src/xfind.js lines
48-64). -/
def performQuery (env : Env) (d : Doc) (sel : Str) (findMany : Bool)
    (root : XNode) : Except Str (StageOut × List Ev) :=
  match validateSelector env sel with
  | .error m => .error m
  | .ok _ => .ok (runStages env d findMany root (splitTriple sel))

/-- Number of elements reported by the final `console.log`. -/
def StageOut.count : StageOut → Nat
  | .oneN x => if x.isSome then 1 else 0
  | .many l => l.length

/-- Embedding of `xfind(selector, root)` (src/xfind.js lines 19-23; the
`findFirst` operation of the spec). -/
def xfind (env : Env) (d : Doc) (sel : Str) (root : XNode) :
    Except Str (StageOut × List Ev) :=
  match performQuery env d sel false root with
  | .ok (r, evs) => .ok (r, evs ++ [.found r.count])
  | .error m => .error m

/-- Embedding of `xfindAll(selector, root)` (src/xfind.js lines 35-39; the
`findAll` operation of the spec). -/
def xfindAll (env : Env) (d : Doc) (sel : Str) (root : XNode) :
    Except Str (StageOut × List Ev) :=
  match performQuery env d sel true root with
  | .ok (r, evs) => .ok (r, evs ++ [.found r.count])
  | .error m => .error m

/-! ## Claims C5 and C10: the quote-aware tokenizer -/

theorem specSplitAux_pair (d c2 : Char) (r2 cur : Str) (dq sq : Bool) :
    specSplitAux d ('\\' :: c2 :: r2) cur dq sq
      = specSplitAux d r2 (cur ++ ['\\', c2]) dq sq := by
  simp [specSplitAux]

theorem specSplitAux_bs_nil (d : Char) (cur : Str) (dq sq : Bool) :
    specSplitAux d ['\\'] cur dq sq
      = if '\\' = d && !dq && !sq then [cur, []] else [cur ++ ['\\']] := by
  simp [specSplitAux]

theorem specSplitAux_cons (d c : Char) (rest cur : Str) (dq sq : Bool)
    (hbs : c ≠ '\\') :
    specSplitAux d (c :: rest) cur dq sq
      = if c = '"' && !sq then specSplitAux d rest (cur ++ [c]) (!dq) sq
        else if c = '\'' && !dq then specSplitAux d rest (cur ++ [c]) dq (!sq)
        else if c = d && !dq && !sq then cur :: specSplitAux d rest [] dq sq
        else specSplitAux d rest (cur ++ [c]) dq sq := by
  cases rest with
  | nil => simp only [specSplitAux, if_neg hbs]
  | cons c2 r2 => simp only [specSplitAux, if_neg hbs]

theorem specSplitAux_ne_nil (d : Char) :
    ∀ (cs cur : Str) (dq sq : Bool), specSplitAux d cs cur dq sq ≠ []
  | [], cur, dq, sq => by simp [specSplitAux]
  | c :: rest, cur, dq, sq => by
      by_cases hbs : c = '\\'
      · subst hbs
        cases rest with
        | nil =>
            rw [specSplitAux_bs_nil]
            split <;> simp
        | cons c2 r2 =>
            rw [specSplitAux_pair]
            exact specSplitAux_ne_nil d r2 (cur ++ ['\\', c2]) dq sq
      · rw [specSplitAux_cons d c rest cur dq sq hbs]
        split
        · exact specSplitAux_ne_nil d rest (cur ++ [c]) (!dq) sq
        · split
          · exact specSplitAux_ne_nil d rest (cur ++ [c]) dq (!sq)
          · split
            · simp
            · exact specSplitAux_ne_nil d rest (cur ++ [c]) dq sq

theorem joinWith_cons (d : Char) (p : Str) (rest : List Str) (h : rest ≠ []) :
    joinWith d (p :: rest) = p ++ d :: joinWith d rest := by
  cases rest with
  | nil => exact absurd rfl h
  | cons q qs => rfl

theorem joinWith_specSplitAux (d : Char) :
    ∀ (cs cur : Str) (dq sq : Bool),
      joinWith d (specSplitAux d cs cur dq sq) = cur ++ cs
  | [], cur, dq, sq => by simp [specSplitAux, joinWith]
  | c :: rest, cur, dq, sq => by
      by_cases hbs : c = '\\'
      · subst hbs
        cases rest with
        | nil =>
            rw [specSplitAux_bs_nil]
            by_cases hd : ('\\' = d && !dq && !sq) = true
            · rw [if_pos hd]
              have hcd : '\\' = d := by
                have h' : ('\\' = d ∧ dq = false) ∧ sq = false := by simpa using hd
                exact h'.1.1
              rw [joinWith_cons d cur [[]] (by simp)]
              simp [joinWith, ← hcd]
            · rw [if_neg hd]
              simp [joinWith]
        | cons c2 r2 =>
            rw [specSplitAux_pair]
            rw [joinWith_specSplitAux d r2 (cur ++ ['\\', c2]) dq sq]
            simp
      · rw [specSplitAux_cons d c rest cur dq sq hbs]
        by_cases b1 : (c = '"' && !sq) = true
        · rw [if_pos b1, joinWith_specSplitAux d rest (cur ++ [c]) (!dq) sq]
          simp
        · rw [if_neg b1]
          by_cases b2 : (c = '\'' && !dq) = true
          · rw [if_pos b2, joinWith_specSplitAux d rest (cur ++ [c]) dq (!sq)]
            simp
          · rw [if_neg b2]
            by_cases b3 : (c = d && !dq && !sq) = true
            · rw [if_pos b3]
              have hcd : c = d := by
                have h' : (c = d ∧ dq = false) ∧ sq = false := by simpa using b3
                exact h'.1.1
              rw [joinWith_cons d cur _ (specSplitAux_ne_nil d rest [] dq sq)]
              rw [joinWith_specSplitAux d rest [] dq sq]
              simp [hcd]
            · rw [if_neg b3, joinWith_specSplitAux d rest (cur ++ [c]) dq sq]
              simp

/-- For line-terminator-free input, join-with-delimiter undoes the split. -/
theorem joinWith_splitByUnquoted (s : Str) (d : Char)
    (h : ∀ c ∈ s, isLineTerm c = false) :
    joinWith d (splitByUnquotedCharacter s d) = s := by
  rw [splitByUnquotedCharacter_eq_specSplit s d h]
  rw [specSplit]
  rw [joinWith_specSplitAux d s [] false false]
  simp

/-- C5 (corrected).  On inputs free of line terminators, the tokenizer splits
exactly as the claim's quote automaton prescribes (escape pairs atomic, quote
toggles guarded by the opposite quote state, the delimiter splitting only when
unquoted), and the concrete example of the claim holds.  The restriction to
line-terminator-free inputs is forced by `claim_C5_counterexample`: the
`match(/\\?.|^$/g)` tokenisation silently drops line terminators. -/
theorem claim_C5 (s : Str) (d : Char) (h : ∀ c ∈ s, isLineTerm c = false) :
    splitByUnquotedCharacter s d = specSplit d s
      ∧ splitByUnquotedCharacter "a[data-x=\"1,2\"],b".data ','
          = ["a[data-x=\"1,2\"]".data, "b".data] := by
  constructor
  · exact splitByUnquotedCharacter_eq_specSplit s d h
  · decide

/-- Witness for C5 at a concrete input. -/
theorem claim_C5_witness :
    splitByUnquotedCharacter "ab,'c,d'".data ',' = specSplit ',' "ab,'c,d'".data
      ∧ splitByUnquotedCharacter "a[data-x=\"1,2\"],b".data ','
          = ["a[data-x=\"1,2\"]".data, "b".data] :=
  claim_C5 "ab,'c,d'".data ',' (by decide)

/-- Counterexample for C5 as stated: the claim quantifies over every input
string, but on `"a\nb"` the source tokenizer drops the line terminator
(`.` in the scanning regex does not match it), so it does not implement the
claimed automaton there. -/
theorem claim_C5_counterexample :
    splitByUnquotedCharacter "a\nb".data ',' = ["ab".data]
      ∧ specSplit ',' "a\nb".data = ["a\nb".data]
      ∧ splitByUnquotedCharacter "a\nb".data ',' ≠ specSplit ',' "a\nb".data := by
  refine ⟨by decide, by decide, by decide⟩

/-- C10 (confirmed).  For every input without line terminators, rejoining the
pieces with the delimiter reconstructs the input exactly. -/
theorem claim_C10 (s : Str) (d : Char) (h : ∀ c ∈ s, isLineTerm c = false) :
    joinWith d (splitByUnquotedCharacter s d) = s :=
  joinWith_splitByUnquoted s d h

/-- Witness for C10 at a concrete input (quoted delimiter and escape). -/
theorem claim_C10_witness :
    joinWith ',' (splitByUnquotedCharacter "a[x=\"1,2\"],b\\,c".data ',')
      = "a[x=\"1,2\"],b\\,c".data :=
  claim_C10 "a[x=\"1,2\"],b\\,c".data ',' (by decide)

/-! ## Claim C4: invalid selectors raise -/

/-- C4 (confirmed).  Whenever the host's grammar validator rejects the
selector string, both `xfind` and `xfindAll` surface the `Invalid selector`
error: no match result is produced, so in particular an empty selector (which
the host rejects) never silently matches everything. -/
theorem claim_C4 (env : Env) (d : Doc) (sel : Str) (root : XNode)
    (h : env.valid sel = false) :
    xfind env d sel root = .error ("Invalid selector: ".data ++ sel)
      ∧ xfindAll env d sel root = .error ("Invalid selector: ".data ++ sel) := by
  constructor
  · simp [xfind, performQuery, validateSelector, h]
  · simp [xfindAll, performQuery, validateSelector, h]

/-- A host environment whose validator implements the CSS rule that the empty
string is grammar-invalid (and rejects everything else as well). -/
def envRejectAll : Env :=
  { canShadow := false, valid := fun _ => false, elMatches := fun _ _ => false }

/-- The empty document. -/
def docEmpty : Doc := ⟨[]⟩

/-- Witness for C4: the empty selector on a host that rejects it. -/
theorem claim_C4_witness :
    xfind envRejectAll docEmpty [] (.doc docEmpty)
        = .error ("Invalid selector: ".data ++ [])
      ∧ xfindAll envRejectAll docEmpty [] (.doc docEmpty)
        = .error ("Invalid selector: ".data ++ []) :=
  claim_C4 envRejectAll docEmpty [] (.doc docEmpty) rfl

/-! ## Claim C8: determinism of `xfindAll` over a fixed snapshot -/

/-- C8 (confirmed).  The embedding is a pure function of the tree snapshot and
the query inputs, so two successive `xfindAll` calls on an unmutated tree
yield the same collection: same length, same elements, same order. -/
theorem claim_C8 (env : Env) (d : Doc) (sel : Str) (root : XNode)
    (r1 r2 : Except Str (StageOut × List Ev))
    (h1 : xfindAll env d sel root = r1) (h2 : xfindAll env d sel root = r2) :
    r1 = r2 :=
  h1.symm.trans h2

/-- Witness for C8 at a concrete query. -/
theorem claim_C8_witness :
    (xfindAll envRejectAll docEmpty "a".data (.doc docEmpty)
        = xfindAll envRejectAll docEmpty "a".data (.doc docEmpty)) :=
  claim_C8 envRejectAll docEmpty "a".data (.doc docEmpty) _ _ rfl rfl

/-! ## Claim C3: intermediate-stage failure short-circuits -/

/-- The node reached after resolving the first `k` boundary stages with the
single-result path (the loop state of `performQuery` before iteration `k`). -/
def resolvePrefix (env : Env) (d : Doc) : XNode → List Str → Nat → Option XNode
  | root, _, 0 => some root
  | _, [], _ + 1 => none
  | root, s :: rest, k + 1 =>
      match querySelectorXFind env d s root with
      | none => none
      | some e => resolvePrefix env d (.elem e) rest k

theorem runStages_stageFail (env : Env) (d : Doc) (findMany : Bool) :
    ∀ (i : Nat) (stages : List Str) (root : XNode) (r : XNode),
      i + 1 < stages.length →
      resolvePrefix env d root stages i = some r →
      querySelectorXFind env d (stages.getD i []) r = none →
      runStages env d findMany root stages
        = (if findMany then .many [] else .oneN none,
           (stages.take (i + 1)).map Ev.staged ++ [.notFound (stages.getD i [])])
  | 0, stages, root, r, hlen, hpre, hfail => by
      match stages with
      | [] => simp at hlen
      | [s] => simp at hlen
      | s :: s2 :: rest =>
          have hr : root = r := by
            simpa [resolvePrefix] using hpre
          subst hr
          have hfail' : querySelectorXFind env d s root = none := by
            simpa using hfail
          simp [runStages, hfail']
  | i + 1, stages, root, r, hlen, hpre, hfail => by
      match stages with
      | [] => simp at hlen
      | s :: rest =>
          rw [show resolvePrefix env d root (s :: rest) (i + 1)
                = match querySelectorXFind env d s root with
                  | none => none
                  | some e => resolvePrefix env d (.elem e) rest i from rfl] at hpre
          match hq : querySelectorXFind env d s root with
          | none => rw [hq] at hpre; simp at hpre
          | some e =>
              rw [hq] at hpre
              simp only at hpre
              have hlen' : i + 1 < rest.length := by simpa using hlen
              have hfail' : querySelectorXFind env d (rest.getD i []) r = none := by
                simpa using hfail
              have ih := runStages_stageFail env d findMany i rest (.elem e) r
                hlen' hpre hfail'
              have hrest : rest ≠ [] := by
                intro hx; rw [hx] at hlen'; simp at hlen'
              match rest, hrest with
              | s2 :: rest2, _ =>
                  simp only [runStages, hq]
                  rw [ih]
                  simp

/-- C3 (confirmed).  For a multi-stage selector that passes validation, if the
stages before index `i` resolve and stage `i` (an intermediate stage: `i + 1 <`
number of stages) resolves to no element, then `performQuery` returns normally
(no exception) with `null` in single mode and the empty collection in multi
mode, the event trace queries exactly stages `0..i` (no later stage is
evaluated), and the `console.error` diagnostic names the failed stage. -/
theorem claim_C3 (env : Env) (d : Doc) (sel : Str) (findMany : Bool)
    (root : XNode) (i : Nat) (r : XNode)
    (hv : env.valid sel = true)
    (hlen : i + 1 < (splitTriple sel).length)
    (hpre : resolvePrefix env d root (splitTriple sel) i = some r)
    (hfail : querySelectorXFind env d ((splitTriple sel).getD i []) r = none) :
    performQuery env d sel findMany root
      = .ok (if findMany then .many [] else .oneN none,
             ((splitTriple sel).take (i + 1)).map Ev.staged
               ++ [.notFound ((splitTriple sel).getD i [])]) := by
  rw [performQuery, validateSelector, if_pos hv]
  rw [runStages_stageFail env d findMany i (splitTriple sel) root r hlen hpre hfail]

/-- A host that accepts every selector string, never matches, with shadow
capability absent. -/
def envAcceptNone : Env :=
  { canShadow := false, valid := fun _ => true, elMatches := fun _ _ => false }

/-- Witness for C3: `"a>>>b"` on the empty document; stage 0 (`"a"`) finds
nothing, the result is `null`, stage 1 (`"b"`) is never queried. -/
theorem claim_C3_witness :
    performQuery envAcceptNone docEmpty "a>>>b".data false (.doc docEmpty)
      = .ok (.oneN none, [.staged "a".data, .notFound "a".data]) := by
  have h := claim_C3 envAcceptNone docEmpty "a>>>b".data false (.doc docEmpty)
    0 (.doc docEmpty) rfl (by decide)
    (by simp [resolvePrefix])
    (by simp [querySelectorXFind, queryInShadowDOM, envAcceptNone,
          nativeQuerySelector, lightDescOf, docEmpty, descList])
  simpa using h

/-! ## Claim C6: host-crossing parent resolution -/

/-- The claim's contract for `getParentOrHost`, read literally: compute the
structural parent; substitute the owning host when that parent is a shadow
root; then return the null marker when the **resolved** parent (the result of
that substitution) equals the bounding root, or when there is no parent. -/
def specParentClaim (d : Doc) (x root : XNode) : Option XNode :=
  match parentNode d x with
  | none => none
  | some p =>
      let resolved := match p with
        | .shadowRoot h => XNode.elem h
        | _ => p
      if xnodeEqB resolved root then none else some resolved

/-- The amended contract: the host substitution is unconditional — when the
structural parent is a shadow root, its owning host is returned **even when
that host is the bounding root** — and the null marker is produced when the
structural (pre-substitution) parent equals the bounding root, or when there
is no parent at all. -/
def specParentAmended (d : Doc) (x root : XNode) : Option XNode :=
  match parentNode d x with
  | none => none
  | some (XNode.shadowRoot h) => some (.elem h)
  | some p => if xnodeEqB p root then none else some p

/-- C6 (corrected).  `getParentOrHost` implements the amended contract: the
root comparison applies to the structural parent only, never to the
substituted host. -/
theorem claim_C6 (d : Doc) (x root : XNode) :
    getParentOrHost d x root = specParentAmended d x root := by
  rw [getParentOrHost, specParentAmended]
  match parentNode d x with
  | none => rfl
  | some (XNode.shadowRoot h) => rfl
  | some (XNode.doc dd) => rfl
  | some (XNode.elem e) => rfl

/-- A host element (eid 0) whose shadow tree holds one element (eid 1). -/
def elemShadowChild : Elem := .node 1 "x".data [] []
def elemHost : Elem := .node 0 "h".data [elemShadowChild] []
def docHost : Doc := ⟨[elemHost]⟩

/-- Counterexample for C6 as stated: for the shadow child of a host that is
itself the bounding root, the resolved (post-substitution) parent equals the
bounding root, so the claim requires the null marker; the code compares only
the pre-substitution parent and returns the host — the walk escapes to the
root itself. -/
theorem claim_C6_counterexample :
    getParentOrHost docHost (.elem elemShadowChild) (.elem elemHost)
        = some (.elem elemHost)
      ∧ specParentClaim docHost (.elem elemShadowChild) (.elem elemHost)
        = none := by
  constructor
  · simp [getParentOrHost, parentNode, findParent, docPairs, pairsF,
      docHost, elemHost, elemShadowChild, Elem.eid, Elem.shadow, Elem.children]
  · simp [specParentClaim, parentNode, findParent, docPairs, pairsF,
      docHost, elemHost, elemShadowChild, Elem.eid, Elem.shadow, Elem.children,
      xnodeEqB]

/-! ## Claim C9: the matcher cursor stays in bounds -/

/-- Instrumented twin of `matchLoop`: `none` exactly when some iteration would
read a component outside `0..comps.length-1` (the read only happens on nodes
that have a `matches` method, i.e. elements). -/
def matchLoopChecked (env : Env) (d : Doc) (root : XNode) (comps : List Str) :
    Nat → Int → Option XNode → Option Bool
  | 0, _, _ => some false
  | _ + 1, _, none => some false
  | fuel + 1, pos, some cur =>
      match cur with
      | .elem e =>
          if pos < 0 ∨ (comps.length : Int) ≤ pos then none
          else
            let isMatch := env.elMatches e.eid (compStr comps pos)
            if isMatch && pos == 0 then some true
            else
              matchLoopChecked env d root comps fuel
                (if isMatch then pos - 1 else pos)
                (getParentOrHost d (.elem e) root)
      | _ =>
          matchLoopChecked env d root comps fuel pos (getParentOrHost d cur root)

theorem matchLoopChecked_eq (env : Env) (d : Doc) (root : XNode)
    (comps : List Str) :
    ∀ (fuel : Nat) (pos : Int) (cur : Option XNode),
      0 ≤ pos → pos < (comps.length : Int) →
      matchLoopChecked env d root comps fuel pos cur
        = some (matchLoop env d root comps fuel pos cur)
  | 0, pos, cur, h0, hlen => by simp [matchLoopChecked, matchLoop]
  | fuel + 1, pos, none, h0, hlen => by simp [matchLoopChecked, matchLoop]
  | fuel + 1, pos, some cur, h0, hlen => by
      match cur with
      | .doc dd =>
          rw [show matchLoopChecked env d root comps (fuel + 1) pos (some (.doc dd))
                = matchLoopChecked env d root comps fuel pos
                    (getParentOrHost d (.doc dd) root) from rfl]
          rw [matchLoopChecked_eq env d root comps fuel pos _ h0 hlen]
          rw [show matchLoop env d root comps (fuel + 1) pos (some (.doc dd))
                = matchLoop env d root comps fuel pos
                    (getParentOrHost d (.doc dd) root) by
            simp [matchLoop, nodeMatchesB]]
      | .shadowRoot hh =>
          rw [show matchLoopChecked env d root comps (fuel + 1) pos
                  (some (.shadowRoot hh))
                = matchLoopChecked env d root comps fuel pos
                    (getParentOrHost d (.shadowRoot hh) root) from rfl]
          rw [matchLoopChecked_eq env d root comps fuel pos _ h0 hlen]
          rw [show matchLoop env d root comps (fuel + 1) pos (some (.shadowRoot hh))
                = matchLoop env d root comps fuel pos
                    (getParentOrHost d (.shadowRoot hh) root) by
            simp [matchLoop, nodeMatchesB]]
      | .elem e =>
          rw [show matchLoopChecked env d root comps (fuel + 1) pos (some (.elem e))
                = if pos < 0 ∨ (comps.length : Int) ≤ pos then none
                  else
                    if env.elMatches e.eid (compStr comps pos) && pos == 0 then
                      some true
                    else
                      matchLoopChecked env d root comps fuel
                        (if env.elMatches e.eid (compStr comps pos) then pos - 1
                         else pos)
                        (getParentOrHost d (.elem e) root) from rfl]
          rw [if_neg (by omega)]
          rw [show matchLoop env d root comps (fuel + 1) pos (some (.elem e))
                = if env.elMatches e.eid (compStr comps pos) && pos == 0 then true
                  else
                    matchLoop env d root comps fuel
                      (if env.elMatches e.eid (compStr comps pos) then pos - 1
                       else pos) (getParentOrHost d (.elem e) root) by
            simp [matchLoop, nodeMatchesB]]
          by_cases hm : env.elMatches e.eid (compStr comps pos) = true
          · by_cases hz : pos = 0
            · subst hz
              rw [if_pos (by simp [hm]), if_pos (by simp [hm])]
            · have hcond : (env.elMatches e.eid (compStr comps pos)
                  && pos == 0) = false := by
                rw [hm, Bool.true_and]
                exact beq_eq_false_iff_ne.mpr hz
              rw [hcond, if_pos hm]
              simp only [Bool.false_eq_true, if_false]
              exact matchLoopChecked_eq env d root comps fuel (pos - 1) _
                (by omega) (by omega)
          · have hm2 : env.elMatches e.eid (compStr comps pos) = false := by
              simpa using hm
            rw [hm2]
            simp only [Bool.false_and, Bool.false_eq_true, if_false]
            exact matchLoopChecked_eq env d root comps fuel pos _ h0 hlen

/-- C9 (confirmed).  Whenever the refinement pipeline produces at least one
component, the matcher's cursor walk never reads a component outside
`0..lastIndex`: a match at cursor 0 returns before any decrement, so the
instrumented walk never reports an out-of-range read and agrees with
`matchElements`. -/
theorem claim_C9 (env : Env) (d : Doc) (root : XNode) (a : Str) (e : Elem)
    (h : refine a ≠ []) :
    matchLoopChecked env d root (refine a) (fuelOf d)
        ((refine a).length - 1 : Int) (some (.elem e))
      = some (matchElements env d (refine a) ((refine a).length - 1 : Int) root e) := by
  rw [matchElements]
  have hlen : 0 < (refine a).length := List.length_pos.mpr h
  exact matchLoopChecked_eq env d root (refine a) (fuelOf d) _ _
    (by omega) (by omega)

/-- Witness for C9: the one-component stage `"a"` on a one-element document. -/
theorem claim_C9_witness :
    matchLoopChecked envAcceptNone docHost (.doc docHost) (refine "a".data)
        (fuelOf docHost) ((refine "a".data).length - 1 : Int)
        (some (.elem elemHost))
      = some (matchElements envAcceptNone docHost (refine "a".data)
          ((refine "a".data).length - 1 : Int) (.doc docHost) elemHost) := by
  have h := claim_C9 envAcceptNone docHost (.doc docHost) "a".data elemHost
    (by simp [refine, jsTrim, normWS, isWS, isComb, splitByUnquotedCharacter,
          scanTokens, isLineTerm, splitStep, appendToLast])
  exact h

/-! ## Claim C7: the tree collector -/

/-- The claim's discovery order: each element is immediately followed by all
elements of its shadow sub-tree, recursively, the remainder of the flat list
afterwards. -/
def discoveryOrder (l : List Elem) : List Elem :=
  match l with
  | [] => []
  | e :: rest => (e :: discoveryOrder (descList e.shadow)) ++ discoveryOrder rest
termination_by (l.map creach).sum
decreasing_by
  · rw [← sreachF_eq]
    have h1 : creach e = 1 + sreachF e.shadow := creach_def e
    simp
    omega
  · simp
    have := creach_pos e
    omega

theorem collectElements_nil : collectElements [] = [] := by
  rw [collectElements]

theorem collectElements_cons (e : Elem) (rest : List Elem) :
    collectElements (e :: rest)
      = e :: (collectElements (descList e.shadow) ++ collectElements rest) := by
  rw [collectElements]

theorem discoveryOrder_nil : discoveryOrder [] = [] := by
  rw [discoveryOrder]

theorem discoveryOrder_cons (e : Elem) (rest : List Elem) :
    discoveryOrder (e :: rest)
      = (e :: discoveryOrder (descList e.shadow)) ++ discoveryOrder rest := by
  rw [discoveryOrder]

theorem collectElements_eq_discovery (l : List Elem) :
    collectElements l = discoveryOrder l := by
  induction l using collectElements.induct with
  | case1 => rw [collectElements_nil, discoveryOrder_nil]
  | case2 e rest ih1 ih2 =>
      rw [collectElements_cons, discoveryOrder_cons, ih1, ih2]
      simp

/-- The elements from which downward discovery starts at a root: the top
elements for the document, light children plus shadow children for an
element root, the shadow forest for a shadow root. -/
def rootKids : XNode → List Elem
  | .doc d => d.children
  | .elem e => e.children ++ e.shadow
  | .shadowRoot h => h.shadow

/-- The claim's result sequence: the root's own attached sub-tree contents
first, then the root's direct-tree contents, both in discovery order. -/
def specDiscovery (root : XNode) : List Elem :=
  (match root with
   | .elem r => discoveryOrder (descList r.shadow)
   | _ => []) ++ discoveryOrder (lightDescOf root)

/-- Light descendant-or-self. -/
inductive LDesc : Elem → Elem → Prop
  | refl (e : Elem) : LDesc e e
  | child {p c e : Elem} : c ∈ p.children → LDesc c e → LDesc p e

/-- Composed descendant-or-self: descent through light children or through a
shadow boundary, in any nesting. -/
inductive CDesc : Elem → Elem → Prop
  | refl (e : Elem) : CDesc e e
  | child {p c e : Elem} : c ∈ p.children → CDesc c e → CDesc p e
  | shade {p c e : Elem} : c ∈ p.shadow → CDesc c e → CDesc p e

/-- An element is reachable from the root through any nesting of light and
shadow boundaries. -/
def Reach (root : XNode) (e : Elem) : Prop := ∃ x ∈ rootKids root, CDesc x e

theorem self_mem_descList : ∀ (F : List Elem), ∀ x ∈ F, x ∈ descList F := by
  intro F
  induction F with
  | nil => simp
  | cons y rest ih =>
    intro x hx
    rw [descList_cons]
    rcases List.mem_cons.mp hx with h | h
    · exact List.mem_cons.mpr (Or.inl h)
    · exact List.mem_cons.mpr (Or.inr (List.mem_append.mpr (Or.inr (ih x h))))

theorem children_mem_descList :
    ∀ (F : List Elem) (p : Elem), p ∈ descList F →
      ∀ c ∈ p.children, c ∈ descList F := by
  intro F
  induction F using descList.induct with
  | case1 => simp [descList]
  | case2 i t sh ch rest ih1 ih2 =>
      intro p hp c hc
      rw [descList_cons] at hp ⊢
      simp only [Elem.children] at *
      rcases List.mem_cons.mp hp with rfl | hp
      · simp only [Elem.children] at hc
        exact List.mem_cons.mpr (Or.inr (List.mem_append.mpr
          (Or.inl (self_mem_descList _ c hc))))
      · rcases List.mem_append.mp hp with hp | hp
        · exact List.mem_cons.mpr (Or.inr (List.mem_append.mpr
            (Or.inl (ih1 p hp c hc))))
        · exact List.mem_cons.mpr (Or.inr (List.mem_append.mpr
            (Or.inr (ih2 p hp c hc))))

theorem mem_descList_of_LDesc {x e : Elem} (h : LDesc x e) :
    ∀ F : List Elem, x ∈ descList F → e ∈ descList F := by
  induction h with
  | refl => intro F hx; exact hx
  | child hc _ ih =>
      intro F hp
      exact ih F (children_mem_descList F _ hp _ hc)

theorem mem_descList_iff :
    ∀ (F : List Elem) (e : Elem), e ∈ descList F ↔ ∃ x ∈ F, LDesc x e := by
  intro F
  induction F using descList.induct with
  | case1 => simp [descList]
  | case2 i t sh ch rest ih1 ih2 =>
      intro e
      constructor
      · intro he
        rw [descList_cons] at he
        rcases List.mem_cons.mp he with rfl | he
        · exact ⟨_, List.mem_cons_self _ _, LDesc.refl _⟩
        · rcases List.mem_append.mp he with he | he
          · obtain ⟨x, hx, hL⟩ := (ih1 e).mp he
            exact ⟨_, List.mem_cons_self _ _, LDesc.child hx hL⟩
          · obtain ⟨x, hx, hL⟩ := (ih2 e).mp he
            exact ⟨x, List.mem_cons.mpr (Or.inr hx), hL⟩
      · rintro ⟨x, hx, hL⟩
        exact mem_descList_of_LDesc hL _ (self_mem_descList _ x hx)

theorem mem_collectElements_iff (l : List Elem) (e : Elem) :
    e ∈ collectElements l
      ↔ ∃ y ∈ l, y = e ∨ e ∈ collectElements (descList y.shadow) := by
  induction l with
  | nil => simp [collectElements_nil]
  | cons y rest ih =>
      rw [collectElements_cons]
      simp only [List.mem_cons, List.mem_append]
      constructor
      · rintro (rfl | h | h)
        · exact ⟨e, Or.inl rfl, Or.inl rfl⟩
        · exact ⟨y, Or.inl rfl, Or.inr h⟩
        · obtain ⟨z, hz, hh⟩ := ih.mp h
          exact ⟨z, Or.inr hz, hh⟩
      · rintro ⟨z, hz | hz, hh⟩
        · subst hz
          rcases hh with rfl | hh
          · exact Or.inl rfl
          · exact Or.inr (Or.inl hh)
        · exact Or.inr (Or.inr (ih.mpr ⟨z, hz, hh⟩))

theorem cdesc_of_ldesc {x e : Elem} (h : LDesc x e) : CDesc x e := by
  induction h with
  | refl => exact CDesc.refl _
  | child hc _ ih => exact CDesc.child hc ih

theorem cdesc_comp {x y e : Elem} (h : LDesc x y) : CDesc y e → CDesc x e := by
  induction h with
  | refl => exact fun h2 => h2
  | child hc _ ih => exact fun h2 => CDesc.child hc (ih h2)

theorem mem_collect_of_CDesc {x e : Elem} (h : CDesc x e) :
    ∀ F : List Elem, x ∈ descList F → e ∈ collectElements (descList F) := by
  induction h with
  | refl e => intro F hx; exact (mem_collectElements_iff _ _).mpr ⟨e, hx, Or.inl rfl⟩
  | child hc _ ih =>
      intro F hp
      exact ih F (children_mem_descList F _ hp _ hc)
  | @shade p c e2 hc hcd ih =>
      intro F hp
      have hin : e2 ∈ collectElements (descList p.shadow) :=
        ih p.shadow (self_mem_descList _ c hc)
      exact (mem_collectElements_iff _ _).mpr ⟨p, hp, Or.inr hin⟩

theorem creach_le_sreach {y : Elem} {F : List Elem} (hy : y ∈ descList F) :
    creach y ≤ sreachF F := by
  rw [sreachF_eq]
  exact List.single_le_sum (fun n _ => Nat.zero_le n) _ (List.mem_map_of_mem creach hy)

theorem mem_collect_CDesc :
    ∀ (n : Nat) (F : List Elem), sreachF F ≤ n →
      ∀ e, e ∈ collectElements (descList F) → ∃ x ∈ F, CDesc x e := by
  intro n
  induction n with
  | zero =>
      intro F hF e he
      match F with
      | [] => rw [descList] at he; rw [collectElements_nil] at he; simp at he
      | y :: rest =>
          exfalso
          have h1 : 0 < creach y := creach_pos y
          have h2 : creach y ≤ sreachF (y :: rest) :=
            creach_le_sreach (self_mem_descList _ y (List.mem_cons_self _ _))
          omega
  | succ n ih =>
      intro F hF e he
      obtain ⟨y, hy, hcase⟩ := (mem_collectElements_iff _ _).mp he
      obtain ⟨x, hx, hL⟩ := (mem_descList_iff F y).mp hy
      rcases hcase with rfl | hin
      · exact ⟨x, hx, cdesc_of_ldesc hL⟩
      · have hsr : sreachF y.shadow ≤ n := by
          have h1 : creach y ≤ sreachF F := creach_le_sreach hy
          have h2 : creach y = 1 + sreachF y.shadow := creach_def y
          omega
        obtain ⟨c, hc, hCD⟩ := ih y.shadow hsr e hin
        exact ⟨x, hx, cdesc_comp hL (CDesc.shade hc hCD)⟩

/-- Membership in the collected list is exactly composed reachability. -/
theorem mem_collect_descList_iff (F : List Elem) (e : Elem) :
    e ∈ collectElements (descList F) ↔ ∃ x ∈ F, CDesc x e := by
  constructor
  · exact mem_collect_CDesc (sreachF F) F le_rfl e
  · rintro ⟨x, hx, hCD⟩
    exact mem_collect_of_CDesc hCD F (self_mem_descList _ x hx)

/-- C7 (confirmed).  The tree collector returns, flat and in discovery order
(owner immediately followed by its shadow sub-tree, recursively; the root's
attached sub-tree before the root's direct tree), exactly the elements
reachable from the root through any nesting of shadow boundaries; a filter
selector retains exactly the natively matching ones in that order. -/
theorem claim_C7 (env : Env) (root : XNode) :
    gatherAllElementsXFind env none root = specDiscovery root
      ∧ (∀ s, gatherAllElementsXFind env (some s) root
            = (specDiscovery root).filter (fun el => env.elMatches el.eid s))
      ∧ (∀ e, e ∈ gatherAllElementsXFind env none root ↔ Reach root e) := by
  have hbase : gatherAllElementsXFind env none root = specDiscovery root := by
    cases root with
    | doc d =>
        simp [gatherAllElementsXFind, specDiscovery, collectElements_eq_discovery,
          lightDescOf]
    | elem r =>
        simp [gatherAllElementsXFind, specDiscovery, collectElements_eq_discovery,
          lightDescOf]
    | shadowRoot h =>
        simp [gatherAllElementsXFind, specDiscovery, collectElements_eq_discovery,
          lightDescOf]
  refine ⟨hbase, ?_, ?_⟩
  · intro s
    rw [← hbase]
    cases root with
    | doc d => simp [gatherAllElementsXFind]
    | elem r => simp [gatherAllElementsXFind]
    | shadowRoot h => simp [gatherAllElementsXFind]
  · intro e
    cases root with
    | doc d =>
        rw [show gatherAllElementsXFind env none (.doc d)
              = collectElements (descList d.children) by
            simp [gatherAllElementsXFind, lightDescOf]]
        rw [mem_collect_descList_iff]
        exact Iff.rfl
    | elem r =>
        rw [show gatherAllElementsXFind env none (.elem r)
              = collectElements (descList r.shadow)
                  ++ collectElements (descList r.children) by
            simp [gatherAllElementsXFind, lightDescOf]]
        rw [List.mem_append, mem_collect_descList_iff, mem_collect_descList_iff]
        constructor
        · rintro (⟨x, hx, h⟩ | ⟨x, hx, h⟩)
          · exact ⟨x, by simp [rootKids, hx], h⟩
          · exact ⟨x, by simp [rootKids, hx], h⟩
        · rintro ⟨x, hx, h⟩
          rcases List.mem_append.mp (by simpa [rootKids] using hx) with hx | hx
          · exact Or.inr ⟨x, hx, h⟩
          · exact Or.inl ⟨x, hx, h⟩
    | shadowRoot hh =>
        rw [show gatherAllElementsXFind env none (.shadowRoot hh)
              = collectElements (descList hh.shadow) by
            simp [gatherAllElementsXFind, lightDescOf]]
        rw [mem_collect_descList_iff]
        exact Iff.rfl

/-! ## Claim C2: the ancestor-chain matcher is the greedy single-pass walk -/

/-- The upward chain actually visited: the start node followed by iterated
`getParentOrHost`, until the parent is absent (or the fuel, always sufficient
on well-formed documents, runs out). -/
def chainAux (d : Doc) (root : XNode) : Nat → Option XNode → List XNode
  | 0, _ => []
  | _ + 1, none => []
  | fuel + 1, some x => x :: chainAux d root fuel (getParentOrHost d x root)

/-- The claim's greedy walk over the visited chain: at each element test the
component at the cursor; on a match at cursor 0 accept, on any other match
decrement the cursor; in either non-accepting case move on; reject when the
chain is exhausted. -/
def specAccept (env : Env) (comps : List Str) : Nat → List XNode → Bool
  | _, [] => false
  | cursor, n :: rest =>
      if nodeMatchesB env n (comps.getD cursor []) then
        if cursor = 0 then true else specAccept env comps (cursor - 1) rest
      else specAccept env comps cursor rest

theorem compStr_in_range (comps : List Str) (pos : Int)
    (h0 : 0 ≤ pos) (hlen : pos < (comps.length : Int)) :
    compStr comps pos = comps.getD pos.toNat [] := by
  have hlt : pos.toNat < comps.length := by omega
  rw [compStr, if_neg (by omega)]
  rw [List.getD_eq_getElem?_getD, List.getD_eq_getElem?_getD]
  rw [List.getElem?_eq_getElem hlt]
  simp

theorem matchLoop_eq_specAccept (env : Env) (d : Doc) (root : XNode)
    (comps : List Str) :
    ∀ (fuel : Nat) (pos : Int) (cur : Option XNode),
      0 ≤ pos → pos < (comps.length : Int) →
      matchLoop env d root comps fuel pos cur
        = specAccept env comps pos.toNat (chainAux d root fuel cur)
  | 0, pos, cur, h0, hlen => by
      simp [matchLoop, chainAux, specAccept]
  | fuel + 1, pos, none, h0, hlen => by
      simp [matchLoop, chainAux, specAccept]
  | fuel + 1, pos, some cur, h0, hlen => by
      rw [show chainAux d root (fuel + 1) (some cur)
            = cur :: chainAux d root fuel (getParentOrHost d cur root) from rfl]
      rw [show matchLoop env d root comps (fuel + 1) pos (some cur)
            = if nodeMatchesB env cur (compStr comps pos) && pos == 0 then true
              else
                matchLoop env d root comps fuel
                  (if nodeMatchesB env cur (compStr comps pos) then pos - 1
                   else pos) (getParentOrHost d cur root) by
        simp [matchLoop]]
      rw [show specAccept env comps pos.toNat
              (cur :: chainAux d root fuel (getParentOrHost d cur root))
            = if nodeMatchesB env cur (comps.getD pos.toNat []) then
                if pos.toNat = 0 then true
                else specAccept env comps (pos.toNat - 1)
                       (chainAux d root fuel (getParentOrHost d cur root))
              else specAccept env comps pos.toNat
                     (chainAux d root fuel (getParentOrHost d cur root)) by
        simp [specAccept]]
      rw [compStr_in_range comps pos h0 hlen]
      by_cases hm : nodeMatchesB env cur (comps.getD pos.toNat []) = true
      · rw [if_pos hm, if_pos hm]
        by_cases hz : pos = 0
        · subst hz
          rw [if_pos (by simpa using hm), if_pos (by simp)]
        · have hzn : ¬pos.toNat = 0 := by omega
          rw [if_neg hzn]
          have hcond : (nodeMatchesB env cur (comps.getD pos.toNat [])
              && pos == 0) = false := by
            rw [hm, Bool.true_and]
            exact beq_eq_false_iff_ne.mpr hz
          rw [hcond]
          simp only [Bool.false_eq_true, if_false]
          rw [matchLoop_eq_specAccept env d root comps fuel (pos - 1) _
            (by omega) (by omega)]
          have : (pos - 1).toNat = pos.toNat - 1 := by omega
          rw [this]
      · have hm2 : nodeMatchesB env cur (comps.getD pos.toNat []) = false := by
          simpa using hm
        rw [hm2]
        simp only [Bool.false_and, Bool.false_eq_true, if_false]
        exact matchLoop_eq_specAccept env d root comps fuel pos _ h0 hlen

/-- Rank of a node: strictly increases along `getParentOrHost` on well-formed
documents, and is bounded by the document size. -/
def rankX (d : Doc) : XNode → Nat
  | .doc _ => sizeL d.children + 1
  | .elem e => sizeE e
  | .shadowRoot h => sizeE h

/-- The nodes an upward walk can stand on: the document, or an element of the
document. -/
def GoodX (d : Doc) (x : XNode) : Prop :=
  x = .doc d ∨ ∃ e ∈ allE d, x = .elem e

theorem sizeE_le_sizeL_of_mem : ∀ (F : List Elem) (e : Elem), e ∈ F →
    sizeE e ≤ sizeL F := by
  intro F
  induction F with
  | nil => simp
  | cons y rest ih =>
      intro e he
      rw [sizeL_cons]
      rcases List.mem_cons.mp he with rfl | he
      · omega
      · have := ih e he
        omega

theorem self_mem_fullF : ∀ (F : List Elem), ∀ x ∈ F, x ∈ fullF F := by
  intro F
  induction F with
  | nil => simp
  | cons y rest ih =>
      intro x hx
      rw [fullF_cons]
      simp only [List.mem_cons, List.mem_append]
      rcases List.mem_cons.mp hx with rfl | hx
      · exact Or.inl (Or.inl rfl)
      · exact Or.inr (ih x hx)

theorem mem_fullF_of_child :
    ∀ (F : List Elem) (q c : Elem), q ∈ fullF F → c ∈ q.children → c ∈ fullF F := by
  intro F
  induction F using fullF.induct with
  | case1 => simp [fullF]
  | case2 i t sh ch rest ih1 ih2 ih3 =>
      intro q c hq hc
      rw [fullF_cons] at hq ⊢
      simp only [List.mem_cons, List.mem_append, Elem.shadow, Elem.children]
        at hq ⊢
      rcases hq with (rfl | h | h) | h
      · simp only [Elem.children] at hc
        exact Or.inl (Or.inr (Or.inr (self_mem_fullF ch c hc)))
      · exact Or.inl (Or.inr (Or.inl (ih1 q c h hc)))
      · exact Or.inl (Or.inr (Or.inr (ih2 q c h hc)))
      · exact Or.inr (ih3 q c h hc)

theorem mem_fullF_of_shadow :
    ∀ (F : List Elem) (q c : Elem), q ∈ fullF F → c ∈ q.shadow → c ∈ fullF F := by
  intro F
  induction F using fullF.induct with
  | case1 => simp [fullF]
  | case2 i t sh ch rest ih1 ih2 ih3 =>
      intro q c hq hc
      rw [fullF_cons] at hq ⊢
      simp only [List.mem_cons, List.mem_append, Elem.shadow, Elem.children]
        at hq ⊢
      rcases hq with (rfl | h | h) | h
      · simp only [Elem.shadow] at hc
        exact Or.inl (Or.inr (Or.inl (self_mem_fullF sh c hc)))
      · exact Or.inl (Or.inr (Or.inl (ih1 q c h hc)))
      · exact Or.inl (Or.inr (Or.inr (ih2 q c h hc)))
      · exact Or.inr (ih3 q c h hc)

theorem sizeE_le_sizeL_of_mem_fullF :
    ∀ (F : List Elem) (e : Elem), e ∈ fullF F → sizeE e ≤ sizeL F := by
  intro F
  induction F using fullF.induct with
  | case1 => simp [fullF]
  | case2 i t sh ch rest ih1 ih2 ih3 =>
      intro e he
      rw [fullF_cons] at he
      rw [sizeL_cons]
      simp only [List.mem_cons, List.mem_append, Elem.shadow, Elem.children] at he
      have hsz : sizeE (Elem.node i t sh ch) = 1 + sizeL sh + sizeL ch := by
        simp [sizeE, Elem.shadow, Elem.children]
      rcases he with (rfl | h | h) | h
      · omega
      · have := ih1 e h; omega
      · have := ih2 e h; omega
      · have := ih3 e h; omega

theorem fullF_head_mem (i : Nat) (t : Str) (sh ch rest : List Elem) :
    Elem.node i t sh ch ∈ fullF (Elem.node i t sh ch :: rest) := by
  rw [fullF_cons]
  simp

theorem pairsF_sound :
    ∀ (F : List Elem) (x : Nat) (p : XNode), (x, p) ∈ pairsF F →
      ∃ c q : Elem, c.eid = x ∧ c ∈ fullF F ∧ q ∈ fullF F ∧
        ((p = .elem q ∧ c ∈ q.children) ∨ (p = .shadowRoot q ∧ c ∈ q.shadow)) := by
  intro F
  induction F using pairsF.induct with
  | case1 => simp [pairsF]
  | case2 i t sh ch rest ih1 ih2 ih3 =>
      intro x p hp
      rw [pairsF_cons] at hp
      simp only [List.mem_append, List.mem_map, Elem.shadow, Elem.children] at hp
      have hsub : ∀ e, e ∈ fullF sh ∨ e ∈ fullF ch ∨ e ∈ fullF rest →
          e ∈ fullF (Elem.node i t sh ch :: rest) := by
        intro e he
        rw [fullF_cons]
        simp only [List.mem_cons, List.mem_append, Elem.shadow, Elem.children]
        rcases he with h | h | h
        · exact Or.inl (Or.inr (Or.inl h))
        · exact Or.inl (Or.inr (Or.inr h))
        · exact Or.inr h
      rcases hp with (((⟨c, hc, hcx⟩ | ⟨c, hc, hcx⟩) | hp) | hp) | hp
      · obtain ⟨h1, h2⟩ := Prod.mk.injEq .. ▸ hcx
        refine ⟨c, Elem.node i t sh ch, h1, ?_, fullF_head_mem i t sh ch rest, ?_⟩
        · exact mem_fullF_of_child _ _ _ (fullF_head_mem i t sh ch rest)
            (by simpa [Elem.children] using hc)
        · exact Or.inl ⟨h2.symm, by simpa [Elem.children] using hc⟩
      · obtain ⟨h1, h2⟩ := Prod.mk.injEq .. ▸ hcx
        refine ⟨c, Elem.node i t sh ch, h1, ?_, fullF_head_mem i t sh ch rest, ?_⟩
        · exact mem_fullF_of_shadow _ _ _ (fullF_head_mem i t sh ch rest)
            (by simpa [Elem.shadow] using hc)
        · exact Or.inr ⟨h2.symm, by simpa [Elem.shadow] using hc⟩
      · obtain ⟨c, q, h1, h2, h3, h4⟩ := ih1 x p hp
        exact ⟨c, q, h1, hsub c (Or.inl h2), hsub q (Or.inl h3), h4⟩
      · obtain ⟨c, q, h1, h2, h3, h4⟩ := ih2 x p hp
        exact ⟨c, q, h1, hsub c (Or.inr (Or.inl h2)),
          hsub q (Or.inr (Or.inl h3)), h4⟩
      · obtain ⟨c, q, h1, h2, h3, h4⟩ := ih3 x p hp
        exact ⟨c, q, h1, hsub c (Or.inr (Or.inr h2)),
          hsub q (Or.inr (Or.inr h3)), h4⟩

theorem docPairs_sound (d : Doc) (x : Nat) (p : XNode)
    (hp : (x, p) ∈ docPairs d) :
    (∃ c ∈ d.children, c.eid = x ∧ p = .doc d)
      ∨ ∃ c q : Elem, c.eid = x ∧ c ∈ allE d ∧ q ∈ allE d ∧
          ((p = .elem q ∧ c ∈ q.children) ∨ (p = .shadowRoot q ∧ c ∈ q.shadow)) := by
  rw [docPairs] at hp
  rcases List.mem_append.mp hp with h | h
  · obtain ⟨c, hc, hcx⟩ := List.mem_map.mp h
    obtain ⟨h1, h2⟩ := Prod.mk.injEq .. ▸ hcx
    exact Or.inl ⟨c, hc, h1, h2.symm⟩
  · exact Or.inr (pairsF_sound d.children x p h)

theorem eid_inj (d : Doc) (hwf : wfDoc d) {a b : Elem}
    (ha : a ∈ allE d) (hb : b ∈ allE d) (h : a.eid = b.eid) : a = b :=
  List.inj_on_of_nodup_map hwf ha hb h

theorem rankX_le (d : Doc) (x : XNode) (hg : GoodX d x) :
    rankX d x ≤ sizeL d.children + 1 := by
  rcases hg with rfl | ⟨e, he, rfl⟩
  · simp [rankX]
  · have := sizeE_le_sizeL_of_mem_fullF d.children e he
    simp [rankX]
    omega

theorem sizeE_lt_of_child {q c : Elem} (h : c ∈ q.children) : sizeE c < sizeE q := by
  have h1 := sizeE_le_sizeL_of_mem q.children c h
  have h2 : sizeE q = 1 + sizeL q.shadow + sizeL q.children := rfl
  omega

theorem sizeE_lt_of_shadow {q c : Elem} (h : c ∈ q.shadow) : sizeE c < sizeE q := by
  have h1 := sizeE_le_sizeL_of_mem q.shadow c h
  have h2 : sizeE q = 1 + sizeL q.shadow + sizeL q.children := rfl
  omega

/-- On a well-formed document, each `getParentOrHost` step stays on document
nodes and strictly increases the rank. -/
theorem parentStep (d : Doc) (root : XNode) (x y : XNode)
    (hwf : wfDoc d) (hg : GoodX d x)
    (hy : getParentOrHost d x root = some y) :
    GoodX d y ∧ rankX d x < rankX d y := by
  rcases hg with rfl | ⟨e, he, rfl⟩
  · rw [getParentOrHost] at hy
    simp [parentNode] at hy
  · rw [getParentOrHost] at hy
    match hp : parentNode d (.elem e) with
    | none => rw [hp] at hy; simp at hy
    | some p =>
        rw [hp] at hy
        have hmem : (e.eid, p) ∈ docPairs d := by
          rw [parentNode, findParent] at hp
          match hf : (docPairs d).find? (fun pr => pr.1 == e.eid) with
          | none => rw [hf] at hp; simp at hp
          | some pr =>
              rw [hf] at hp
              simp at hp
              have h1 := List.find?_some hf
              have h2 := List.mem_of_find?_eq_some hf
              have h3 : pr.1 = e.eid := by simpa using h1
              have hpr : pr = (e.eid, p) := by
                cases pr with
                | mk a b => simp_all
              rw [← hpr]
              exact h2
        rcases docPairs_sound d e.eid p hmem with ⟨c, hc, hcx, rfl⟩ |
          ⟨c, q, hcx, hcA, hqA, hcase⟩
        · have hce : c = e := eid_inj d hwf (self_mem_fullF _ c hc) he hcx
          subst hce
          simp only at hy
          split at hy
          · simp at hy
          · have hyv : y = .doc d := by
              simpa using hy.symm
            subst hyv
            refine ⟨Or.inl rfl, ?_⟩
            have := sizeE_le_sizeL_of_mem d.children c hc
            simp [rankX]
            omega
        · have hce : c = e := eid_inj d hwf hcA he hcx
          subst hce
          rcases hcase with ⟨rfl, hch⟩ | ⟨rfl, hsh⟩
          · simp only at hy
            split at hy
            · simp at hy
            · have hyv : y = .elem q := by simpa using hy.symm
              subst hyv
              refine ⟨Or.inr ⟨q, hqA, rfl⟩, ?_⟩
              have := sizeE_lt_of_child hch
              simpa [rankX] using this
          · have hyv : y = .elem q := by simpa using hy.symm
            subst hyv
            refine ⟨Or.inr ⟨q, hqA, rfl⟩, ?_⟩
            have := sizeE_lt_of_shadow hsh
            simpa [rankX] using this

/-- The visited chain terminates properly: its last node has no
host-crossing parent (absent parent or the bounding root reached). -/
def chainClosed (d : Doc) (root : XNode) (l : List XNode) : Prop :=
  match l.getLast? with
  | none => True
  | some z => getParentOrHost d z root = none

theorem chainAux_closed (d : Doc) (root : XNode) (hwf : wfDoc d) :
    ∀ (fuel : Nat) (x : XNode), GoodX d x →
      sizeL d.children + 2 ≤ fuel + rankX d x →
      chainClosed d root (chainAux d root fuel (some x))
  | 0, x, hg, hb => by
      exfalso
      have := rankX_le d x hg
      omega
  | fuel + 1, x, hg, hb => by
      rw [show chainAux d root (fuel + 1) (some x)
            = x :: chainAux d root fuel (getParentOrHost d x root) from rfl]
      match hy : getParentOrHost d x root with
      | none =>
          match fuel with
          | 0 => simp [chainAux, chainClosed, hy]
          | fuel + 1 => simp [chainAux, chainClosed, hy]
      | some y =>
          obtain ⟨hgy, hr⟩ := parentStep d root x y hwf hg hy
          have hxelem : rankX d x ≤ sizeL d.children := by
            rcases hg with rfl | ⟨e, he, rfl⟩
            · exfalso
              rw [getParentOrHost] at hy
              simp [parentNode] at hy
            · have := sizeE_le_sizeL_of_mem_fullF d.children e he
              simpa [rankX] using this
          have hfuel : 1 ≤ fuel := by
            have := rankX_le d y hgy
            omega
          match fuel, hfuel with
          | fuel + 1, _ =>
              have ih := chainAux_closed d root hwf (fuel + 1) y hgy (by omega)
              rw [show chainAux d root (fuel + 1) (some y)
                    = y :: chainAux d root fuel (getParentOrHost d y root)
                  from rfl] at ih ⊢
              rw [chainClosed] at ih ⊢
              rwa [List.getLast?_cons_cons]

/-- C2 (confirmed).  On a well-formed document, for a non-empty component
sequence, the matcher accepts a candidate exactly when the claim's greedy
single-pass right-to-left walk over the visited host-crossing ancestor chain
succeeds; the chain itself is properly terminated (its last node has no
host-crossing parent within the bounding root), so the walk genuinely runs
out of elements rather than being cut off — and no backtracking exists, the
walk being a single pass over that chain. -/
theorem claim_C2 (env : Env) (d : Doc) (root : XNode) (comps : List Str)
    (e : Elem) (hwf : wfDoc d) (he : e ∈ allE d) (hc : comps ≠ []) :
    matchElements env d comps ((comps.length : Int) - 1) root e
        = specAccept env comps (comps.length - 1)
            (chainAux d root (fuelOf d) (some (.elem e)))
      ∧ chainClosed d root (chainAux d root (fuelOf d) (some (.elem e))) := by
  constructor
  · rw [matchElements]
    have hlen : 0 < comps.length := List.length_pos.mpr hc
    rw [matchLoop_eq_specAccept env d root comps (fuelOf d) _ _ (by omega)
      (by omega)]
    congr 1
    omega
  · refine chainAux_closed d root hwf (fuelOf d) (.elem e)
      (Or.inr ⟨e, he, rfl⟩) ?_
    rw [fuelOf]
    simp [rankX]

/-- Fixtures for the C2 witness: a host (eid 0, tag `a`) whose shadow tree
holds one element (eid 1, tag `b`). -/
def elemB : Elem := .node 1 "b".data [] []
def elemA : Elem := .node 0 "a".data [elemB] []
def docW : Doc := ⟨[elemA]⟩
def envW : Env :=
  { canShadow := true, valid := fun _ => true,
    elMatches := fun i s => (i == 0 && s == "a".data) || (i == 1 && s == "b".data) }

/-- Witness for C2 on the concrete shadow document. -/
theorem claim_C2_witness :
    matchElements envW docW ["a".data, "b".data]
          ((["a".data, "b".data].length : Int) - 1) (.doc docW) elemB
        = specAccept envW ["a".data, "b".data] (["a".data, "b".data].length - 1)
            (chainAux docW (.doc docW) (fuelOf docW) (some (.elem elemB)))
      ∧ chainClosed docW (.doc docW)
          (chainAux docW (.doc docW) (fuelOf docW) (some (.elem elemB))) :=
  claim_C2 envW docW (.doc docW) ["a".data, "b".data] elemB
    (by rw [wfDoc]; simp [allE, docW, elemA, elemB, fullF, Elem.eid])
    (by simp [allE, docW, elemA, elemB, fullF])
    (by simp)

/-! ## Claim C1: agreement with the native query on shadow-free trees

The native side of this refinement claim needs a concrete conforming host.
Modelled from the spec: a mini-CSS engine on the fragment of tag-name
selectors — comma-separated alternatives of space-separated tag components,
matched with descendant semantics against the element's (unbounded) ancestor
chain.  The library's oracles (`valid`, per-element `matches`) and the scoped
native queries are all instantiated from this one engine.
-/

/-- Plain character split (no quote awareness). -/
def splitPlain (d : Char) : Str → List Str
  | [] => [[]]
  | c :: rest =>
      if c = d then [] :: splitPlain d rest
      else
        match splitPlain d rest with
        | [] => [[c]]
        | p :: ps => (c :: p) :: ps

/-- The space-separated components of a selector, empties dropped. -/
def cssWords (s : Str) : List Str :=
  (splitPlain ' ' s).filter (fun w => !w.isEmpty)

/-- The comma-separated alternatives of a selector. -/
def cssAlts (s : Str) : List Str := splitPlain ',' s

/-- The element nodes of a node list. -/
def elemsOf (l : List XNode) : List Elem :=
  l.filterMap (fun x => match x with | .elem e => some e | _ => none)

/-- The strict ancestor elements of `e` (nearest first), up to the document:
the host-crossing upward chain bounded only by the document itself.  The fuel
exceeds the tree height. -/
def ancElems (d : Doc) (e : Elem) : List Elem :=
  elemsOf (chainAux d (.doc d) (sizeL d.children + 1)
    (getParentOrHost d (.elem e) (.doc d)))

/-- Greedy right-to-left matching of required tag components (innermost
required component first) against the ancestor chain. -/
def tagSeqMatch : List Str → List Elem → Bool
  | [], _ => true
  | _ :: _, [] => false
  | w :: ws, a :: anc =>
      if a.tag == w then tagSeqMatch ws anc else tagSeqMatch (w :: ws) anc

/-- Modelled from the spec: the host's per-element `matches` for the tag-name
fragment — some comma alternative has a non-empty component list, the
element's tag equals the last component, and the earlier components match
strictly outward along the ancestor chain. -/
def cssMatchB (d : Doc) (e : Elem) (s : Str) : Bool :=
  (cssAlts s).any fun alt =>
    match (cssWords alt).reverse with
    | [] => false
    | w :: ws => e.tag == w && tagSeqMatch ws (ancElems d e)

/-- Modelled from the spec: the host's grammar validator for the fragment —
every alternative must have at least one component (in particular the empty
string is invalid). -/
def cssValidB (s : Str) : Bool :=
  (cssAlts s).all (fun a => !(cssWords a).isEmpty)

/-- Element lookup by identity. -/
def findElemById (d : Doc) (i : Nat) : Option Elem :=
  (allE d).find? (fun e => e.eid == i)

/-- The per-element `matches` oracle, indexed by element identity. -/
def cssMatchEid (d : Doc) (i : Nat) (s : Str) : Bool :=
  match findElemById d i with
  | some e => cssMatchB d e s
  | none => false

/-- The mini-CSS host environment over a document. -/
def cssEnv (d : Doc) (cs : Bool) : Env :=
  { canShadow := cs, valid := cssValidB, elMatches := cssMatchEid d }

/-- A document without any shadow trees. -/
def shadowFree (d : Doc) : Prop := ∀ e ∈ allE d, e.shadow = []

/-! ### Fragment string lemmas -/

/-- The tag-name selector fragment: letters and spaces only. -/
def fragChar (c : Char) : Bool := c.isAlpha || c = ' '

theorem fragChar_space : fragChar ' ' = true := by decide

theorem fragChar_not_special {c : Char} (h : fragChar c = true) :
    c ≠ ',' ∧ c ≠ '\\' ∧ c ≠ '"' ∧ c ≠ '\'' ∧ c ≠ '>' ∧ isLineTerm c = false
      ∧ isComb c = false := by
  rcases Bool.or_eq_true _ _ |>.mp h with ha | hs
  · have hne : ∀ x : Char, x.isAlpha = false → c ≠ x := by
      intro x hx hc
      subst hc
      rw [hx] at ha
      cases ha
    refine ⟨hne ',' (by decide), hne '\\' (by decide), hne '"' (by decide),
      hne '\'' (by decide), hne '>' (by decide), ?_, ?_⟩
    · simp only [isLineTerm, Bool.or_eq_false_iff, decide_eq_false_iff_not]
      exact ⟨⟨⟨hne '\n' (by decide), hne '\r' (by decide)⟩,
        hne '\u2028' (by decide)⟩, hne '\u2029' (by decide)⟩
    · simp only [isComb, Bool.or_eq_false_iff, decide_eq_false_iff_not]
      exact ⟨⟨hne '>' (by decide), hne '+' (by decide)⟩, hne '~' (by decide)⟩
  · have hc : c = ' ' := by simpa using hs
    subst hc
    refine ⟨by decide, by decide, by decide, by decide, by decide, by decide,
      by decide⟩

theorem fragChar_ws {c : Char} (h : fragChar c = true) :
    isWS c = decide (c = ' ') := by
  by_cases hsp : c = ' '
  · subst hsp; decide
  · have ha : c.isAlpha = true := by
      rcases Bool.or_eq_true _ _ |>.mp h with ha | hs
      · exact ha
      · exact absurd (by simpa using hs) hsp
    have hne : ∀ x : Char, x.isAlpha = false → c ≠ x := by
      intro x hx hc
      subst hc
      rw [hx] at ha
      cases ha
    have hr : decide (c = ' ') = false := decide_eq_false_iff_not.mpr hsp
    rw [hr]
    simp only [isWS, Bool.or_eq_false_iff, decide_eq_false_iff_not]
    exact ⟨⟨⟨⟨⟨hsp, hne '\t' (by decide)⟩, hne '\n' (by decide)⟩,
      hne '\r' (by decide)⟩, hne '\x0b' (by decide)⟩, hne '\x0c' (by decide)⟩

theorem splitPlain_ne_nil (d : Char) : ∀ s : Str, splitPlain d s ≠ []
  | [] => by simp [splitPlain]
  | c :: rest => by
      rw [splitPlain]
      split
      · simp
      · match h : splitPlain d rest with
        | [] => exact absurd h (splitPlain_ne_nil d rest)
        | p :: ps => simp

theorem splitPlain_no_delim (d : Char) :
    ∀ s : Str, (∀ c ∈ s, c ≠ d) → splitPlain d s = [s]
  | [], _ => by simp [splitPlain]
  | c :: rest, h => by
      rw [splitPlain, if_neg (h c (by simp))]
      rw [splitPlain_no_delim d rest (fun x hx => h x (by simp [hx]))]

theorem splitTriple_cons_ne (c : Char) (rest : Str) (h : c ≠ '>') :
    splitTriple (c :: rest)
      = match splitTriple rest with
        | [] => [[c]]
        | p :: ps => (c :: p) :: ps := by
  rw [splitTriple.eq_def]
  split
  · rename_i heq
    cases heq
  · rename_i heq
    injection heq with h1 _
    exact absurd h1 h
  · rename_i heq
    injection heq with h1 h2
    subst h1
    subst h2
    rfl

theorem splitTriple_no_gt : ∀ s : Str, (∀ c ∈ s, c ≠ '>') → splitTriple s = [s]
  | [], _ => by rw [splitTriple]
  | c :: rest, h => by
      rw [splitTriple_cons_ne c rest (h c (by simp))]
      rw [splitTriple_no_gt rest (fun x hx => h x (by simp [hx]))]

/-- Prefix the head of a nonempty piece list. -/
def consHead (cur : Str) : List Str → List Str
  | [] => [cur]
  | p :: ps => (cur ++ p) :: ps

theorem specSplitAux_plain (d : Char) :
    ∀ s : Str,
      (∀ c ∈ s, isLineTerm c = false ∧ c ≠ '\\' ∧ c ≠ '"' ∧ c ≠ '\'') →
      ∀ cur : Str, specSplitAux d s cur false false = consHead cur (splitPlain d s)
  | [], _, cur => by simp [specSplitAux, splitPlain, consHead]
  | c :: rest, h, cur => by
      obtain ⟨hlt, hbs, hdq, hsq⟩ := h c (by simp)
      have hrest := fun x hx => h x (List.mem_cons_of_mem c hx)
      rw [specSplitAux_cons d c rest cur false false hbs]
      rw [if_neg (by simp [hdq]), if_neg (by simp [hsq])]
      by_cases hd : c = d
      · rw [if_pos (by simp [hd])]
        rw [specSplitAux_plain d rest hrest []]
        rw [splitPlain, if_pos hd]
        match hsp : splitPlain d rest with
        | [] => exact absurd hsp (splitPlain_ne_nil d rest)
        | p :: ps => simp [consHead]
      · rw [if_neg (by simp [hd])]
        rw [specSplitAux_plain d rest hrest (cur ++ [c])]
        rw [splitPlain, if_neg hd]
        match hsp : splitPlain d rest with
        | [] => exact absurd hsp (splitPlain_ne_nil d rest)
        | p :: ps => simp [consHead]

theorem splitByUnquoted_plain (d : Char) (s : Str)
    (h : ∀ c ∈ s, isLineTerm c = false ∧ c ≠ '\\' ∧ c ≠ '"' ∧ c ≠ '\'') :
    splitByUnquotedCharacter s d = splitPlain d s := by
  rw [splitByUnquotedCharacter_eq_specSplit s d (fun c hc => (h c hc).1)]
  rw [specSplit, specSplitAux_plain d s h []]
  match hsp : splitPlain d s with
  | [] => exact absurd hsp (splitPlain_ne_nil d s)
  | p :: ps => simp [consHead]

theorem mem_of_mem_dropWhile {p : Char → Bool} {l : Str} {x : Char}
    (h : x ∈ l.dropWhile p) : x ∈ l := (List.dropWhile_sublist p).subset h

theorem normWS_id (s : Str) (h : ∀ c ∈ s, isComb c = false) : normWS s = s := by
  induction s using normWS.induct with
  | case1 => rw [normWS]
  | case2 c rest hcomb =>
      exact absurd (h c (by simp)) (by simp [hcomb])
  | case3 c rest hcomb hws hdrop =>
      rw [normWS.eq_def]
      simp only [hcomb, if_false, hws, if_true, Bool.false_eq_true,
        Bool.true_eq_false]
      split
      · rfl
      · rename_i d2 rest2 heq
        rw [heq] at hdrop
        exact absurd hdrop (by simp)
  | case4 c rest hcomb hws d2 rest2 hdrop hcomb2 ih =>
      have hd2 : d2 ∈ rest := by
        have : d2 ∈ rest.dropWhile isWS := by rw [hdrop]; simp
        exact mem_of_mem_dropWhile this
      exact absurd (h d2 (by simp [hd2])) (by simp [hcomb2])
  | case5 c rest hcomb hws d2 rest2 hdrop hcomb2 ih =>
      rw [normWS.eq_def]
      simp only [hcomb, hws, if_false, if_true, Bool.false_eq_true,
        Bool.true_eq_false]
      split
      · rfl
      · rename_i d3 rest3 heq
        rw [hdrop] at heq
        injection heq with e1 e2
        subst e1
        subst e2
        rw [if_neg (by simp [hcomb2])]
        rw [ih (by
          intro x hx
          rcases List.mem_cons.mp hx with rfl | hx
          · have hm : x ∈ rest.dropWhile isWS := by rw [hdrop]; simp
            exact h x (by simp [mem_of_mem_dropWhile hm])
          · have hm : x ∈ rest.dropWhile isWS := by rw [hdrop]; simp [hx]
            exact h x (by simp [mem_of_mem_dropWhile hm]))]
        rw [show (c :: List.takeWhile isWS rest) ++ d2 :: rest2
              = c :: (List.takeWhile isWS rest ++ d2 :: rest2) from rfl]
        rw [← hdrop, List.takeWhile_append_dropWhile]
  | case6 c rest hcomb hws ih =>
      rw [normWS.eq_def]
      simp only [hcomb, hws, if_false, Bool.false_eq_true]
      rw [ih (fun x hx => h x (by simp [hx]))]

theorem splitPlain_append_delim (d : Char) :
    ∀ s : Str, splitPlain d (s ++ [d]) = splitPlain d s ++ [[]]
  | [] => by simp [splitPlain]
  | c :: rest => by
      rw [List.cons_append, splitPlain, splitPlain]
      by_cases hc : c = d
      · rw [if_pos hc, if_pos hc, splitPlain_append_delim d rest]
        rfl
      · rw [if_neg hc, if_neg hc, splitPlain_append_delim d rest]
        match h : splitPlain d rest with
        | [] => exact absurd h (splitPlain_ne_nil d rest)
        | p :: ps => simp

theorem cssWords_cons_space (s : Str) : cssWords (' ' :: s) = cssWords s := by
  rw [cssWords, cssWords, splitPlain, if_pos rfl]
  simp [List.isEmpty]

theorem cssWords_append_space (s : Str) : cssWords (s ++ [' ']) = cssWords s := by
  rw [cssWords, cssWords, splitPlain_append_delim]
  simp [List.filter_append, List.isEmpty]

theorem cssWords_append_replicate :
    ∀ (k : Nat) (s : Str), cssWords (s ++ List.replicate k ' ') = cssWords s
  | 0, s => by simp
  | k + 1, s => by
      rw [show List.replicate (k + 1) ' ' = ' ' :: List.replicate k ' ' from rfl]
      rw [show s ++ ' ' :: List.replicate k ' '
            = (s ++ [' ']) ++ List.replicate k ' ' by simp]
      rw [cssWords_append_replicate k (s ++ [' '])]
      exact cssWords_append_space s

theorem cssWords_dropWhile (s : Str) (hf : ∀ c ∈ s, fragChar c = true) :
    cssWords (s.dropWhile isWS) = cssWords s := by
  induction s with
  | nil => simp
  | cons c rest ih =>
      by_cases hws : isWS c = true
      · have hsp : c = ' ' := by
          have := fragChar_ws (hf c (by simp))
          rw [hws] at this
          simpa using this.symm
        subst hsp
        rw [List.dropWhile_cons, if_pos (by simp [isWS])]
        rw [ih (fun x hx => hf x (by simp [hx]))]
        exact (cssWords_cons_space rest).symm
      · rw [List.dropWhile_cons, if_neg (by simp [hws])]

theorem mem_of_mem_takeWhile {p : Char → Bool} {l : Str} {x : Char}
    (h : x ∈ l.takeWhile p) : x ∈ l := (List.takeWhile_sublist p).subset h

theorem jsTrim_words (s : Str) (hf : ∀ c ∈ s, fragChar c = true) :
    cssWords (jsTrim s) = cssWords s := by
  rw [jsTrim]
  have hft : ∀ c ∈ s.dropWhile isWS, fragChar c = true :=
    fun c hc => hf c (mem_of_mem_dropWhile hc)
  rw [show cssWords s = cssWords (s.dropWhile isWS) from (cssWords_dropWhile s hf).symm]
  set t := s.dropWhile isWS with ht
  have hdec : t = ((t.reverse.dropWhile isWS).reverse)
      ++ (t.reverse.takeWhile isWS).reverse := by
    conv_lhs => rw [← List.reverse_reverse t,
      ← List.takeWhile_append_dropWhile (p := isWS) (l := t.reverse)]
    rw [List.reverse_append]
  have hrep : (t.reverse.takeWhile isWS).reverse
      = List.replicate (t.reverse.takeWhile isWS).reverse.length ' ' := by
    rw [List.eq_replicate_iff]
    refine ⟨rfl, ?_⟩
    intro b hb
    have hb2 : b ∈ t.reverse.takeWhile isWS := by simpa using hb
    have hbws : isWS b = true := List.mem_takeWhile_imp hb2
    have hbs : b ∈ t := by
      have := mem_of_mem_takeWhile hb2
      simpa using this
    have := fragChar_ws (hft b hbs)
    rw [hbws] at this
    simpa using this.symm
  calc cssWords ((t.reverse.dropWhile isWS).reverse)
      = cssWords (((t.reverse.dropWhile isWS).reverse)
          ++ List.replicate (t.reverse.takeWhile isWS).reverse.length ' ') := by
        rw [cssWords_append_replicate]
    _ = cssWords t := by rw [← hrep, ← hdec]

/-! ### Bridging the matcher and the mini-CSS host -/

theorem mem_fullF_of_LDesc {x e : Elem} (h : LDesc x e) :
    ∀ F : List Elem, x ∈ fullF F → e ∈ fullF F := by
  induction h with
  | refl => exact fun F hx => hx
  | child hc _ ih =>
      intro F hp
      exact ih F (mem_fullF_of_child F _ _ hp hc)

theorem mem_allE_of_mem_descList {d : Doc} {e : Elem}
    (h : e ∈ descList d.children) : e ∈ allE d := by
  obtain ⟨x, hx, hL⟩ := (mem_descList_iff d.children e).mp h
  exact mem_fullF_of_LDesc hL d.children (self_mem_fullF _ x hx)

theorem collectElements_id (l : List Elem) (h : ∀ e ∈ l, e.shadow = []) :
    collectElements l = l := by
  induction l with
  | nil => exact collectElements_nil
  | cons e rest ih =>
      rw [collectElements_cons, h e (by simp)]
      rw [show descList ([] : List Elem) = [] from by rw [descList]]
      rw [collectElements_nil, ih (fun x hx => h x (by simp [hx]))]
      simp

theorem gather_shadowFree (env : Env) (d : Doc) (hsf : shadowFree d)
    (w : Option Str) :
    gatherAllElementsXFind env w (.doc d)
      = match w with
        | none => descList d.children
        | some s => (descList d.children).filter (fun e => env.elMatches e.eid s) := by
  have hall : ∀ e ∈ descList d.children, e.shadow = [] :=
    fun e he => hsf e (mem_allE_of_mem_descList he)
  rw [gatherAllElementsXFind.eq_def]
  simp only [lightDescOf]
  rw [collectElements_id _ hall]
  match w with
  | none => simp
  | some s => simp

theorem splitPlain_piece_mem (dl : Char) :
    ∀ (s p : Str), p ∈ splitPlain dl s → ∀ c ∈ p, c ∈ s ∧ c ≠ dl
  | [], p, hp, c, hc => by
      rw [splitPlain] at hp
      simp at hp
      subst hp
      simp at hc
  | a :: rest, p, hp, c, hc => by
      rw [splitPlain] at hp
      by_cases ha : a = dl
      · rw [if_pos ha] at hp
        rcases List.mem_cons.mp hp with rfl | hp
        · simp at hc
        · obtain ⟨h1, h2⟩ := splitPlain_piece_mem dl rest p hp c hc
          exact ⟨by simp [h1], h2⟩
      · rw [if_neg ha] at hp
        match hsp : splitPlain dl rest with
        | [] => exact absurd hsp (splitPlain_ne_nil dl rest)
        | q :: qs =>
            rw [hsp] at hp
            rcases List.mem_cons.mp hp with rfl | hp
            · rcases List.mem_cons.mp hc with rfl | hc
              · exact ⟨by simp, ha⟩
              · obtain ⟨h1, h2⟩ := splitPlain_piece_mem dl rest q
                  (by rw [hsp]; simp) c hc
                exact ⟨by simp [h1], h2⟩
            · obtain ⟨h1, h2⟩ := splitPlain_piece_mem dl rest p
                (by rw [hsp]; simp [hp]) c hc
              exact ⟨by simp [h1], h2⟩

theorem cssWords_piece {s w : Str} (hw : w ∈ cssWords s) :
    w ≠ [] ∧ ∀ c ∈ w, c ∈ s ∧ c ≠ ' ' := by
  rw [cssWords] at hw
  obtain ⟨h1, h2⟩ := List.mem_filter.mp hw
  refine ⟨by simpa using h2, ?_⟩
  intro c hc
  exact splitPlain_piece_mem ' ' s w h1 c hc

theorem cssMatchB_word (d : Doc) (b : Elem) (w : Str)
    (hf : ∀ c ∈ w, fragChar c = true) (hsp : ∀ c ∈ w, c ≠ ' ') (hne : w ≠ []) :
    cssMatchB d b w = (b.tag == w) := by
  rw [cssMatchB]
  have halts : cssAlts w = [w] :=
    splitPlain_no_delim ',' w (fun c hc => (fragChar_not_special (hf c hc)).1)
  rw [halts]
  have hwords : cssWords w = [w] := by
    rw [cssWords, splitPlain_no_delim ' ' w hsp]
    simp [hne]
  simp only [List.any_cons, List.any_nil, Bool.or_false, hwords]
  rw [show ([w] : List Str).reverse = [w] from rfl]
  simp [tagSeqMatch]

theorem findElemById_self (d : Doc) (hwf : wfDoc d) {e : Elem}
    (he : e ∈ allE d) : findElemById d e.eid = some e := by
  rw [findElemById]
  match hf : (allE d).find? (fun b => b.eid == e.eid) with
  | none =>
      have := List.find?_eq_none.mp hf e he
      simp at this
  | some b =>
      have h1 := List.find?_some hf
      have h2 := List.mem_of_find?_eq_some hf
      have h3 : b = e := eid_inj d hwf h2 he (by simpa using h1)
      rw [hf, h3]

/-- Greedy right-to-left matching over the node chain (the innermost required
component first). -/
def revSeqMatch (env : Env) : List Str → List XNode → Bool
  | [], _ => true
  | _ :: _, [] => false
  | w :: ws, x :: chain =>
      if nodeMatchesB env x w then revSeqMatch env ws chain
      else revSeqMatch env (w :: ws) chain

theorem specAccept_eq_revSeq (env : Env) (comps : List Str) :
    ∀ (chain : List XNode) (k : Nat), k < comps.length →
      specAccept env comps k chain
        = revSeqMatch env ((comps.take (k + 1)).reverse) chain := by
  intro chain
  induction chain with
  | nil =>
      intro k hk
      rw [specAccept]
      have h1 : comps.take (k + 1) ≠ [] := by
        intro hx
        have h2 : (comps.take (k + 1)).length = 0 := by rw [hx]; rfl
        rw [List.length_take] at h2
        omega
      match h2 : (comps.take (k + 1)).reverse with
      | [] =>
          exact absurd (by simpa using congrArg List.reverse h2) h1
      | w :: ws => rw [revSeqMatch]
  | cons x chain ih =>
      intro k hk
      have hget : comps.getD k [] = comps[k] := by
        rw [List.getD_eq_getElem?_getD, List.getElem?_eq_getElem hk]
        simp
      have htake : (comps.take (k + 1)).reverse = comps[k] :: (comps.take k).reverse := by
        rw [List.take_succ]
        rw [List.getElem?_eq_getElem hk]
        simp
      rw [htake, specAccept, revSeqMatch, hget]
      by_cases hm : nodeMatchesB env x comps[k] = true
      · rw [if_pos hm, if_pos hm]
        by_cases hz : k = 0
        · subst hz
          rw [if_pos rfl]
          simp [revSeqMatch]
        · rw [if_neg hz]
          rw [ih (k - 1) (by omega)]
          have : k - 1 + 1 = k := by omega
          rw [this]
      · rw [if_neg hm, if_neg hm]
        rw [ih k hk, htake]

theorem chainAux_none (d : Doc) (root : XNode) (fuel : Nat) :
    chainAux d root fuel none = [] := by
  match fuel with
  | 0 => rw [chainAux]
  | fuel + 1 => rw [chainAux]

theorem getParentOrHost_doc_elem {d : Doc} {x y : XNode}
    (h : getParentOrHost d x (.doc d) = some y) : ∃ b, y = .elem b := by
  rw [getParentOrHost] at h
  match hp : parentNode d x with
  | none => rw [hp] at h; simp at h
  | some p =>
      rw [hp] at h
      match p with
      | .shadowRoot q =>
          simp only at h
          exact ⟨q, by simpa using h.symm⟩
      | .doc dd =>
          simp only at h
          rw [if_pos (by rw [xnodeEqB])] at h
          cases h
      | .elem q =>
          simp only at h
          split at h
          · cases h
          · exact ⟨q, by simpa using h.symm⟩

theorem chain_elems (d : Doc) (hwf : wfDoc d) :
    ∀ (fuel : Nat) (x : XNode), (∃ a ∈ allE d, x = .elem a) →
      ∀ y ∈ chainAux d (.doc d) fuel (some x), ∃ b ∈ allE d, y = .elem b
  | 0, x, hx, y, hy => by rw [chainAux] at hy; cases hy
  | fuel + 1, x, hx, y, hy => by
      rw [show chainAux d (.doc d) (fuel + 1) (some x)
            = x :: chainAux d (.doc d) fuel (getParentOrHost d x (.doc d))
          from rfl] at hy
      rcases List.mem_cons.mp hy with rfl | hy
      · exact hx
      · match hp : getParentOrHost d x (.doc d) with
        | none =>
            rw [hp, chainAux_none] at hy
            cases hy
        | some z =>
            rw [hp] at hy
            obtain ⟨a, ha, rfl⟩ := hx
            obtain ⟨hgz, _⟩ := parentStep d (.doc d) (.elem a) z hwf
              (Or.inr ⟨a, ha, rfl⟩) hp
            obtain ⟨b, hb⟩ := getParentOrHost_doc_elem hp
            subst hb
            have hbA : b ∈ allE d := by
              rcases hgz with hgz | ⟨c, hc, hcz⟩
              · cases hgz
              · obtain rfl : b = c := by injection hcz with h
                exact hc
            exact chain_elems d hwf fuel (.elem b) ⟨b, hbA, rfl⟩ y hy

theorem revSeq_eq_tagSeq (d : Doc) (cs : Bool) (hwf : wfDoc d) :
    ∀ (chain : List XNode),
      (∀ y ∈ chain, ∃ b ∈ allE d, y = .elem b) →
      ∀ ws : List Str,
        (∀ w ∈ ws, w ≠ [] ∧ (∀ c ∈ w, fragChar c = true) ∧ ∀ c ∈ w, c ≠ ' ') →
        revSeqMatch (cssEnv d cs) ws chain = tagSeqMatch ws (elemsOf chain) := by
  intro chain
  induction chain with
  | nil =>
      intro _ ws _
      match ws with
      | [] => rw [revSeqMatch, tagSeqMatch]
      | w :: ws => rw [revSeqMatch, elemsOf]; simp [tagSeqMatch]
  | cons x chain ih =>
      intro hch ws hws
      obtain ⟨b, hb, rfl⟩ := hch x (by simp)
      have helems : elemsOf (XNode.elem b :: chain) = b :: elemsOf chain := by
        rw [elemsOf]
        simp [List.filterMap_cons]
        rfl
      match ws with
      | [] => rw [revSeqMatch, tagSeqMatch]
      | w :: ws =>
          obtain ⟨hne, hfr, hsp⟩ := hws w (by simp)
          have horacle : nodeMatchesB (cssEnv d cs) (.elem b) w = (b.tag == w) := by
            rw [nodeMatchesB]
            rw [show (cssEnv d cs).elMatches = cssMatchEid d from rfl]
            rw [cssMatchEid, findElemById_self d hwf hb]
            exact cssMatchB_word d b w hfr hsp hne
          rw [revSeqMatch, horacle, helems, tagSeqMatch]
          by_cases hm : (b.tag == w) = true
          · rw [if_pos hm, if_pos hm]
            exact ih (fun y hy => hch y (by simp [hy])) ws
              (fun v hv => hws v (by simp [hv]))
          · rw [if_neg hm, if_neg hm]
            exact ih (fun y hy => hch y (by simp [hy])) (w :: ws) hws

theorem cssWords_frag_conds {sel : Str} (hf : ∀ c ∈ sel, fragChar c = true) :
    ∀ w ∈ cssWords sel,
      w ≠ [] ∧ (∀ c ∈ w, fragChar c = true) ∧ ∀ c ∈ w, c ≠ ' ' := by
  intro w hwmem
  obtain ⟨hne, hmem⟩ := cssWords_piece hwmem
  exact ⟨hne, fun c hc => hf c (hmem c hc).1, fun c hc => (hmem c hc).2⟩

theorem matcher_pointwise (d : Doc) (cs : Bool) (sel : Str) (e : Elem)
    (hwf : wfDoc d) (he : e ∈ allE d)
    (hf : ∀ c ∈ sel, fragChar c = true) (w : Str) (ws : List Str)
    (hrev : (cssWords sel).reverse = w :: ws) :
    (matchElements (cssEnv d cs) d (cssWords sel)
        (((cssWords sel).length : Int) - 1) (.doc d) e
      && (cssEnv d cs).elMatches e.eid w)
    = cssMatchB d e sel := by
  have hlen : 0 < (cssWords sel).length := by
    by_contra hx
    have h0 : cssWords sel = [] := by
      cases hc : cssWords sel with
      | nil => rfl
      | cons a b => rw [hc] at hx; simp at hx
    rw [h0] at hrev
    cases hrev
  have hconds := cssWords_frag_conds hf
  have hwmem : w ∈ cssWords sel := by
    have : w ∈ (cssWords sel).reverse := by rw [hrev]; simp
    simpa using this
  rw [matchElements]
  rw [matchLoop_eq_specAccept (cssEnv d cs) d (.doc d) (cssWords sel) (fuelOf d)
    (((cssWords sel).length : Int) - 1) (some (.elem e)) (by omega) (by omega)]
  have htonat : (((cssWords sel).length : Int) - 1).toNat
      = (cssWords sel).length - 1 := by omega
  rw [htonat]
  rw [specAccept_eq_revSeq (cssEnv d cs) (cssWords sel) _
    ((cssWords sel).length - 1) (by omega)]
  have htake : (cssWords sel).take ((cssWords sel).length - 1 + 1) = cssWords sel := by
    have h1 : (cssWords sel).length - 1 + 1 = (cssWords sel).length := by omega
    rw [h1, List.take_length]
  rw [htake, hrev]
  have hchain : chainAux d (.doc d) (fuelOf d) (some (.elem e))
      = .elem e :: chainAux d (.doc d) (sizeL d.children + 1)
          (getParentOrHost d (.elem e) (.doc d)) := rfl
  rw [hchain, revSeqMatch]
  have horacle : nodeMatchesB (cssEnv d cs) (.elem e) w = (e.tag == w) := by
    rw [nodeMatchesB]
    rw [show (cssEnv d cs).elMatches = cssMatchEid d from rfl]
    rw [cssMatchEid, findElemById_self d hwf he]
    obtain ⟨h1, h2, h3⟩ := hconds _ hwmem
    exact cssMatchB_word d e _ h2 h3 h1
  have horacle2 : (cssEnv d cs).elMatches e.eid w = (e.tag == w) := by
    rw [show (cssEnv d cs).elMatches = cssMatchEid d from rfl]
    rw [cssMatchEid, findElemById_self d hwf he]
    obtain ⟨h1, h2, h3⟩ := hconds _ hwmem
    exact cssMatchB_word d e _ h2 h3 h1
  have halts : cssAlts sel = [sel] :=
    splitPlain_no_delim ',' sel
      (fun c hc => (fragChar_not_special (hf c hc)).1)
  rw [cssMatchB, halts]
  simp only [List.any_cons, List.any_nil, Bool.or_false]
  rw [hrev, horacle, horacle2]
  by_cases hm : (e.tag == w) = true
  · rw [if_pos hm, hm, Bool.and_true]
    have htail : revSeqMatch (cssEnv d cs) ws
        (chainAux d (.doc d) (sizeL d.children + 1)
          (getParentOrHost d (.elem e) (.doc d)))
        = tagSeqMatch ws (ancElems d e) := by
      rw [revSeq_eq_tagSeq d cs hwf _ ?_ _ ?_]
      · rfl
      · intro y hy
        have hy2 : y ∈ chainAux d (.doc d) (fuelOf d) (some (.elem e)) := by
          rw [hchain]
          exact List.mem_cons_of_mem _ hy
        exact chain_elems d hwf (fuelOf d) (.elem e) ⟨e, he, rfl⟩ y hy2
      · intro v hv
        have hvmem : v ∈ cssWords sel := by
          have : v ∈ (cssWords sel).reverse := by rw [hrev]; simp [hv]
          simpa using this
        exact hconds v hvmem
    rw [htail]
    rw [show (match w :: ws with
          | [] => false
          | w2 :: ws2 => e.tag == w2 && tagSeqMatch ws2 (ancElems d e))
        = (e.tag == w && tagSeqMatch ws (ancElems d e)) from rfl]
    rw [hm, Bool.true_and]
  · have hm2 : (e.tag == w) = false := by simpa using hm
    rw [if_neg hm, hm2, Bool.and_false]
    rw [show (match w :: ws with
          | [] => false
          | w2 :: ws2 => e.tag == w2 && tagSeqMatch ws2 (ancElems d e))
        = (e.tag == w && tagSeqMatch ws (ancElems d e)) from rfl]
    rw [hm2, Bool.false_and]

theorem fragChar_conds {s : Str} (hf : ∀ c ∈ s, fragChar c = true) :
    ∀ c ∈ s, isLineTerm c = false ∧ c ≠ '\\' ∧ c ≠ '"' ∧ c ≠ '\'' := by
  intro c hc
  obtain ⟨h1, h2, h3, h4, h5, h6, h7⟩ := fragChar_not_special (hf c hc)
  exact ⟨h6, h2, h3, h4⟩

theorem refine_frag (s : Str) (hf : ∀ c ∈ s, fragChar c = true) :
    refine s = cssWords s := by
  rw [refine]
  have hft : ∀ c ∈ jsTrim s, fragChar c = true := by
    intro c hc
    apply hf
    rw [jsTrim] at hc
    have hc1 : c ∈ (s.dropWhile isWS).reverse.dropWhile isWS := by
      simpa using hc
    have hc2 : c ∈ (s.dropWhile isWS).reverse := mem_of_mem_dropWhile hc1
    have hc3 : c ∈ s.dropWhile isWS := by simpa using hc2
    exact mem_of_mem_dropWhile hc3
  rw [normWS_id (jsTrim s)
    (fun c hc => (fragChar_not_special (hft c hc)).2.2.2.2.2.2)]
  rw [splitByUnquoted_plain ' ' (jsTrim s) (fragChar_conds hft)]
  rw [show (splitPlain ' ' (jsTrim s)).filter (fun p => !p.isEmpty)
        = cssWords (jsTrim s) from rfl]
  exact jsTrim_words s hf

theorem oracle_eq_cssMatchB (d : Doc) (cs : Bool) (hwf : wfDoc d) (s : Str)
    {e : Elem} (he : e ∈ allE d) :
    (cssEnv d cs).elMatches e.eid s = cssMatchB d e s := by
  rw [show (cssEnv d cs).elMatches = cssMatchEid d from rfl]
  rw [cssMatchEid, findElemById_self d hwf he]

theorem altPipeline_eq_native (d : Doc) (cs : Bool) (sel : Str)
    (hwf : wfDoc d) (hsf : shadowFree d)
    (hf : ∀ c ∈ sel, fragChar c = true) (hw : cssWords sel ≠ []) :
    (gatherAllElementsXFind (cssEnv d cs) (refine sel).getLast? (.doc d)).filter
        (matchElements (cssEnv d cs) d (refine sel)
          (((refine sel).length : Int) - 1) (.doc d))
      = nativeQuerySelectorAll (cssEnv d cs) (.doc d) sel := by
  obtain ⟨w, ws, hrev⟩ :
      ∃ w ws, (cssWords sel).reverse = w :: ws := by
    match hr : (cssWords sel).reverse with
    | [] =>
        exact absurd (by simpa using congrArg List.reverse hr) hw
    | w :: ws => exact ⟨w, ws, rfl⟩
  have hlast : (cssWords sel).getLast? = some w := by
    rw [← List.head?_reverse, hrev]
    rfl
  rw [refine_frag sel hf, hlast]
  rw [gather_shadowFree (cssEnv d cs) d hsf (some w)]
  rw [nativeQuerySelectorAll]
  rw [show lightDescOf (.doc d) = descList d.children from rfl]
  rw [List.filter_filter]
  apply List.filter_congr
  intro e he
  have heA : e ∈ allE d := mem_allE_of_mem_descList he
  rw [oracle_eq_cssMatchB d cs hwf sel heA]
  exact matcher_pointwise d cs sel e hwf heA hf w ws hrev

theorem queryShadow_many (d : Doc) (cs : Bool) (sel : Str)
    (hwf : wfDoc d) (hsf : shadowFree d)
    (hf : ∀ c ∈ sel, fragChar c = true) (hw : cssWords sel ≠ []) :
    queryInShadowDOM (cssEnv d cs) d sel true (.doc d)
      = .many (nativeQuerySelectorAll (cssEnv d cs) (.doc d) sel) := by
  have halts_tok : splitByUnquotedCharacter sel ',' = [sel] := by
    rw [splitByUnquoted_plain ',' sel (fragChar_conds hf)]
    exact splitPlain_no_delim ',' sel
      (fun c hc => (fragChar_not_special (hf c hc)).1)
  cases cs with
  | false =>
      rw [queryInShadowDOM]
      rfl
  | true =>
      rw [queryInShadowDOM]
      rw [show (cssEnv d true).canShadow = true from rfl]
      simp only [if_true, Bool.not_true, Bool.false_and, Bool.false_eq_true,
        if_false, halts_tok, List.foldl_cons, List.foldl_nil, List.nil_append]
      rw [altPipeline_eq_native d true sel hwf hsf hf hw]

theorem queryShadow_one (d : Doc) (cs : Bool) (sel : Str)
    (hwf : wfDoc d) (hsf : shadowFree d)
    (hf : ∀ c ∈ sel, fragChar c = true) (hw : cssWords sel ≠ []) :
    queryInShadowDOM (cssEnv d cs) d sel false (.doc d)
      = .one (nativeQuerySelector (cssEnv d cs) (.doc d) sel) := by
  have halts_tok : splitByUnquotedCharacter sel ',' = [sel] := by
    rw [splitByUnquoted_plain ',' sel (fragChar_conds hf)]
    exact splitPlain_no_delim ',' sel
      (fun c hc => (fragChar_not_special (hf c hc)).1)
  cases cs with
  | false =>
      rw [queryInShadowDOM]
      rfl
  | true =>
      rw [queryInShadowDOM]
      rw [show (cssEnv d true).canShadow = true from rfl]
      match hr : nativeQuerySelector (cssEnv d true) (.doc d) sel with
      | some e =>
          simp only [if_true, Bool.not_false, Bool.true_and, hr,
            Option.isSome_some, if_pos]
      | none =>
          simp only [if_true, Bool.not_false, Bool.true_and, hr,
            Option.isSome_none, Bool.false_eq_true, if_false, halts_tok,
            List.foldl_cons, List.foldl_nil]
          obtain ⟨w, ws, hrev⟩ :
              ∃ w ws, (cssWords sel).reverse = w :: ws := by
            match hr2 : (cssWords sel).reverse with
            | [] =>
                exact absurd (by simpa using congrArg List.reverse hr2) hw
            | w :: ws => exact ⟨w, ws, rfl⟩
          have hlast : (cssWords sel).getLast? = some w := by
            rw [← List.head?_reverse, hrev]
            rfl
          have hfind : (gatherAllElementsXFind (cssEnv d true)
              (refine sel).getLast? (.doc d)).find?
                (matchElements (cssEnv d true) d (refine sel)
                  (((refine sel).length : Int) - 1) (.doc d)) = none := by
            rw [List.find?_eq_none]
            intro x hx
            rw [refine_frag sel hf] at hx ⊢
            rw [hlast] at hx
            rw [gather_shadowFree (cssEnv d true) d hsf (some w)] at hx
            obtain ⟨hxd, hxw⟩ := List.mem_filter.mp hx
            have hxA : x ∈ allE d := mem_allE_of_mem_descList hxd
            have hnative : (cssEnv d true).elMatches x.eid sel = false := by
              rw [nativeQuerySelector] at hr
              simpa using List.find?_eq_none.mp hr x hxd
            have hpw := matcher_pointwise d true sel x hwf hxA hf w ws hrev
            rw [oracle_eq_cssMatchB d true hwf sel hxA] at hnative
            rw [hnative] at hpw
            rw [hxw, Bool.and_true] at hpw
            simp [hpw]
          rw [hfind]

/-- C1 (corrected).  Over the modelled host, on a well-formed shadow-free
document queried from the document root, for selectors of the tag-name
fragment without top-level commas (space-separated tag components, at least
one component), `xfind` returns exactly the native single-match result and
`xfindAll` exactly the native all-match collection, in the same order and
multiplicity, whatever the capability flag; the event trace is the single
stage plus the found-count log (plus the not-found diagnostic when the single
match is absent).  The exclusions of commas and of non-document roots are
forced by `claim_C1_counterexample`. -/
theorem claim_C1 (d : Doc) (cs : Bool) (sel : Str)
    (hwf : wfDoc d) (hsf : shadowFree d)
    (hf : ∀ c ∈ sel, fragChar c = true) (hw : cssWords sel ≠ []) :
    xfind (cssEnv d cs) d sel (.doc d)
        = .ok (.oneN ((nativeQuerySelector (cssEnv d cs) (.doc d) sel).map
              XNode.elem),
            (if (nativeQuerySelector (cssEnv d cs) (.doc d) sel).isSome then
              [Ev.staged sel]
            else [Ev.staged sel, Ev.notFound sel])
            ++ [Ev.found
                (if (nativeQuerySelector (cssEnv d cs) (.doc d) sel).isSome
                 then 1 else 0)])
      ∧ xfindAll (cssEnv d cs) d sel (.doc d)
        = .ok (.many (nativeQuerySelectorAll (cssEnv d cs) (.doc d) sel),
            [Ev.staged sel,
             Ev.found (nativeQuerySelectorAll (cssEnv d cs) (.doc d) sel).length]) := by
  have hvalid : (cssEnv d cs).valid sel = true := by
    rw [show (cssEnv d cs).valid = cssValidB from rfl]
    rw [cssValidB]
    rw [show cssAlts sel = [sel] from splitPlain_no_delim ',' sel
      (fun c hc => (fragChar_not_special (hf c hc)).1)]
    simp only [List.all_cons, List.all_nil, Bool.and_true]
    cases hcw : cssWords sel with
    | nil => exact absurd hcw hw
    | cons a b => simp
  have hstages : splitTriple sel = [sel] :=
    splitTriple_no_gt sel
      (fun c hc => (fragChar_not_special (hf c hc)).2.2.2.2.1)
  have hq1 : querySelectorXFind (cssEnv d cs) d sel (.doc d)
      = nativeQuerySelector (cssEnv d cs) (.doc d) sel := by
    rw [querySelectorXFind, queryShadow_one d cs sel hwf hsf hf hw]
  have hqA : querySelectorAllXFind (cssEnv d cs) d sel (.doc d)
      = nativeQuerySelectorAll (cssEnv d cs) (.doc d) sel := by
    rw [querySelectorAllXFind, queryShadow_many d cs sel hwf hsf hf hw]
  constructor
  · have hpq : performQuery (cssEnv d cs) d sel false (.doc d)
        = .ok (runStages (cssEnv d cs) d false (.doc d) [sel]) := by
      rw [performQuery, validateSelector, if_pos hvalid, hstages]
    have hrs : runStages (cssEnv d cs) d false (.doc d) [sel]
        = (match nativeQuerySelector (cssEnv d cs) (.doc d) sel with
           | some e => (.oneN (some (.elem e)), [Ev.staged sel])
           | none => (.oneN none, [Ev.staged sel, Ev.notFound sel])) := by
      rw [runStages]
      simp only [Bool.false_eq_true, if_false, hq1]
    rw [xfind, hpq, hrs]
    cases hnat : nativeQuerySelector (cssEnv d cs) (.doc d) sel with
    | some e => simp [StageOut.count]
    | none => simp [StageOut.count]
  · have hpq : performQuery (cssEnv d cs) d sel true (.doc d)
        = .ok (runStages (cssEnv d cs) d true (.doc d) [sel]) := by
      rw [performQuery, validateSelector, if_pos hvalid, hstages]
    have hrs : runStages (cssEnv d cs) d true (.doc d) [sel]
        = (.many (nativeQuerySelectorAll (cssEnv d cs) (.doc d) sel),
           [Ev.staged sel]) := by
      rw [runStages]
      simp only [if_true, hqA]
    rw [xfindAll, hpq, hrs]
    simp [StageOut.count]

/-- Fixtures for C1: a shadow-free document with `p` containing `q`. -/
def elemQ : Elem := .node 21 "q".data [] []
def elemP : Elem := .node 20 "p".data [] [elemQ]
def docV : Doc := ⟨[elemP]⟩

/-- Witness for C1 on the concrete shadow-free document. -/
theorem claim_C1_witness :
    xfind (cssEnv docV true) docV "p q".data (.doc docV)
        = .ok (.oneN ((nativeQuerySelector (cssEnv docV true) (.doc docV)
              "p q".data).map XNode.elem),
            (if (nativeQuerySelector (cssEnv docV true) (.doc docV)
                  "p q".data).isSome then
              [Ev.staged "p q".data]
            else [Ev.staged "p q".data, Ev.notFound "p q".data])
            ++ [Ev.found
                (if (nativeQuerySelector (cssEnv docV true) (.doc docV)
                      "p q".data).isSome
                 then 1 else 0)])
      ∧ xfindAll (cssEnv docV true) docV "p q".data (.doc docV)
        = .ok (.many (nativeQuerySelectorAll (cssEnv docV true) (.doc docV)
              "p q".data),
            [Ev.staged "p q".data,
             Ev.found (nativeQuerySelectorAll (cssEnv docV true) (.doc docV)
               "p q".data).length]) :=
  claim_C1 docV true "p q".data
    (by rw [wfDoc]; simp [allE, docV, elemP, elemQ, fullF, Elem.eid])
    (by
      intro e he
      simp only [allE, docV, elemP, elemQ] at he
      rw [fullF_cons] at he
      simp [fullF, Elem.shadow, Elem.children] at he
      rcases he with rfl | rfl <;> rfl)
    (by decide)
    (by decide)

/-- Extract the multi-mode collection from a query outcome. -/
def manyOf : Except Str (StageOut × List Ev) → List Elem
  | .ok (.many l, _) => l
  | _ => []

/-- Fixtures for the C1 counterexample: two sibling elements `a`, `b`
(comma case) and a chain `x > r > y` queried from root `r` (bounding case). -/
def elemA2 : Elem := .node 1 "a".data [] []
def elemB2 : Elem := .node 2 "b".data [] []
def doc2 : Doc := ⟨[elemA2, elemB2]⟩
def elemY3 : Elem := .node 12 "y".data [] []
def elemR3 : Elem := .node 11 "r".data [] [elemY3]
def elemX3 : Elem := .node 10 "x".data [] [elemR3]
def doc3 : Doc := ⟨[elemX3]⟩

set_option maxRecDepth 2048 in
/-- Counterexample for C1 as stated.  First, with the alternative selector
`"b,a"` on a shadow-free two-element document, `xfindAll` returns the matches
grouped by comma alternative (`[b, a]`) while the native all-match query
returns document order (`[a, b]`): same elements, different order.  Second,
with root `r` inside `x > r > y` and selector `"x y"`, the native scoped query
finds `y` (its `x` ancestor lies above the root), while `xfindAll` bounds the
ancestor walk at the root and finds nothing. -/
theorem claim_C1_counterexample :
    manyOf (xfindAll (cssEnv doc2 true) doc2 "b,a".data (.doc doc2))
        = [elemB2, elemA2]
      ∧ nativeQuerySelectorAll (cssEnv doc2 true) (.doc doc2) "b,a".data
        = [elemA2, elemB2]
      ∧ ([elemB2, elemA2] : List Elem) ≠ [elemA2, elemB2]
      ∧ manyOf (xfindAll (cssEnv doc3 true) doc3 "x y".data (.elem elemR3)) = []
      ∧ nativeQuerySelectorAll (cssEnv doc3 true) (.elem elemR3) "x y".data
        = [elemY3] := by
  refine ⟨?_, ?_, ?_, ?_, ?_⟩
  · simp [xfindAll, performQuery, validateSelector, cssEnv, cssValidB,
      cssAlts, cssWords, splitPlain, splitTriple, runStages,
      querySelectorAllXFind, queryInShadowDOM, nativeQuerySelector,
      nativeQuerySelectorAll, lightDescOf, descList, splitByUnquotedCharacter,
      scanTokens, splitStep, appendToLast, isLineTerm, refine, jsTrim, normWS,
      isWS, isComb, gatherAllElementsXFind, collectElements, matchElements,
      matchLoop, fuelOf, sizeL, compStr, nodeMatchesB, cssMatchEid,
      findElemById, allE, fullF, cssMatchB, ancElems, chainAux, elemsOf,
      tagSeqMatch, getParentOrHost, parentNode, findParent, docPairs, pairsF,
      xnodeEqB, Elem.eid, Elem.tag, Elem.shadow, Elem.children, doc2, elemA2,
      elemB2, StageOut.count, manyOf]
  · simp [nativeQuerySelectorAll, cssEnv, lightDescOf, descList,
      cssMatchEid, findElemById, allE, fullF, cssMatchB, cssAlts, cssWords,
      splitPlain, ancElems, chainAux, elemsOf, tagSeqMatch, getParentOrHost,
      parentNode, findParent, docPairs, pairsF, xnodeEqB, sizeL, Elem.eid,
      Elem.tag, Elem.shadow, Elem.children, doc2, elemA2, elemB2]
  · intro h
    injection h with h1 _
    have h2 := congrArg Elem.eid h1
    simp [elemB2, elemA2, Elem.eid] at h2
  ·  have hrefine : refine "x y".data = ["x".data, "y".data] := by
      rw [refine_frag _ (by decide)]
      decide
     have hgather : gatherAllElementsXFind (cssEnv doc3 true) (some "y".data)
        (.elem elemR3) = [elemY3] := by
      simp [gatherAllElementsXFind, cssEnv, collectElements, descList,
        lightDescOf, elemR3, elemY3, Elem.shadow, Elem.children, cssMatchEid,
        findElemById, allE, fullF, doc3, elemX3, Elem.eid, cssMatchB, cssAlts,
        cssWords, splitPlain, tagSeqMatch, Elem.tag]
     have hmatch : matchElements (cssEnv doc3 true) doc3 ["x".data, "y".data] 1
        (.elem elemR3) elemY3 = false := by
      simp [matchElements, fuelOf, sizeL, doc3, elemX3, elemR3, elemY3,
        matchLoop, nodeMatchesB, compStr, cssEnv, cssMatchEid, findElemById,
        allE, fullF, Elem.eid, cssMatchB, cssAlts, cssWords, splitPlain,
        tagSeqMatch, Elem.tag, getParentOrHost, parentNode, findParent,
        docPairs, pairsF, Elem.shadow, Elem.children, xnodeEqB]
     have hv : validateSelector (cssEnv doc3 true) "x y".data = .ok () := rfl
     have hcs : (cssEnv doc3 true).canShadow = true := rfl
     simp [manyOf, xfindAll, performQuery, hv, hcs, splitTriple, runStages,
      querySelectorAllXFind, queryInShadowDOM, splitByUnquotedCharacter,
      scanTokens, splitStep, appendToLast, isLineTerm, hrefine, hgather,
      hmatch, List.getLast?, StageOut.count]
  · simp [nativeQuerySelectorAll, cssEnv, lightDescOf, descList,
      cssMatchEid, findElemById, allE, fullF, cssMatchB, cssAlts, cssWords,
      splitPlain, ancElems, chainAux, elemsOf, tagSeqMatch, getParentOrHost,
      parentNode, findParent, docPairs, pairsF, xnodeEqB, sizeL, Elem.eid,
      Elem.tag, Elem.shadow, Elem.children, doc3, elemX3, elemR3, elemY3]
